import Mathlib

/-!
Verification of the PARSEC consensus engine (jeanphilippeD/parsec) against its
natural-language specification.

Shallow embedding conventions used throughout this development:
* machine integers (`usize`) are modelled as `Nat`; no arithmetic here can
  overflow in the source because the quantities are container sizes;
* content hashes (`EventHash`, `ObservationHash`) are modelled as `Nat` or, for
  observations, by the observation value itself (content addressing with an
  injective hash);
* `BTreeMap` is modelled as an association list whose keys are unique,
  `BTreeSet` as a duplicate-free list;
* fallible Rust functions returning `Result`/`Option` are modelled with
  `Option`/`Except`.
-/

/-! ## Gossip graph (`src/gossip/graph/mod.rs`) -/

namespace GraphM

/-- An event as seen by the graph container: only its content hash matters for
`Graph::insert`; the rest of the event is opaque payload data. -/
structure EventG where
  hash : Nat
  data : Nat
deriving DecidableEq

/-- Model of `Graph`: the `events` vector.  The `indices : BTreeMap<EventHash,
EventIndex>` field of the source is maintained so that it maps the hash of every
stored event to its position in `events`; it is modelled here by
first-occurrence lookup (`get_index`), which coincides with the map because
`insert` never stores two events with the same hash. -/
structure Graph where
  events : List EventG
deriving DecidableEq

/-- `Graph::get_index`: hash to topological index. -/
def Graph.get_index (g : Graph) (h : Nat) : Option Nat :=
  g.events.findIdx? (fun e => e.hash == h)

/-- `Graph::contains`. -/
def Graph.contains (g : Graph) (h : Nat) : Bool :=
  (g.get_index h).isSome

/-- `Graph::len`. -/
def Graph.len (g : Graph) : Nat :=
  g.events.length

/-- `Graph::get`: topological index to event. -/
def Graph.get (g : Graph) (i : Nat) : Option EventG :=
  g.events.get? i

/-- `Graph::insert`: if an event with the same hash is already present, return
its index and keep the graph unchanged; otherwise push the event and assign it
the next topological index.  Returns the updated graph together with the index
(the source returns an `IndexedEventRef`, i.e. the index plus a reference). -/
def Graph.insert (g : Graph) (e : EventG) : Graph × Nat :=
  match g.get_index e.hash with
  | some index => (g, index)
  | none => (⟨g.events ++ [e]⟩, g.events.length)

/-- C8, auxiliary: an occupied hash entry points at an event with that hash. -/
theorem graph_get_index_sound {g : Graph} {h : Nat} {i : Nat}
    (hidx : g.get_index h = some i) :
    ∃ e, g.get i = some e ∧ e.hash = h := by
  rw [Graph.get_index, List.findIdx?_eq_some_iff_getElem] at hidx
  obtain ⟨hlt, hp, -⟩ := hidx
  refine ⟨g.events[i], ?_, by simpa using hp⟩
  simp [Graph.get, List.get?_eq_getElem?, List.getElem?_eq_getElem hlt]

/-- C8: `Graph::insert` is idempotent by hash — inserting an event whose hash
is already present returns the stored index of the already-present event and
leaves the graph unchanged — and inserting a fresh hash appends the event with
topological index equal to the previous number of events (hence assigned
indices are monotonically increasing). -/
theorem graph_insert_idempotent_and_monotone (g : Graph) (e : EventG) :
    (∀ i, g.get_index e.hash = some i →
        g.insert e = (g, i) ∧ ∃ e₀, g.get i = some e₀ ∧ e₀.hash = e.hash) ∧
    (g.get_index e.hash = none →
        (g.insert e).1.events = g.events ++ [e] ∧
        (g.insert e).2 = g.len ∧
        (g.insert e).1.len = g.len + 1 ∧
        (g.insert e).1.get g.len = some e ∧
        (g.insert e).1.get_index e.hash = some g.len) := by
  constructor
  · intro i hi
    refine ⟨?_, graph_get_index_sound hi⟩
    simp [Graph.insert, hi]
  · intro hnone
    have hins : g.insert e = (⟨g.events ++ [e]⟩, g.events.length) := by
      simp [Graph.insert, hnone]
    rw [hins]
    refine ⟨rfl, rfl, by simp [Graph.len], ?_, ?_⟩
    · simp [Graph.get, Graph.len, List.get?_eq_getElem?]
    · have hn : g.events.findIdx? (fun x => x.hash == e.hash) = none := hnone
      simp [Graph.get_index, Graph.len, List.findIdx?_append, hn, List.findIdx?_cons]

/-- Witness for C8 at a concrete graph: both the occupied-hash branch and the
fresh-hash branch, evaluated. -/
theorem graph_insert_witness :
    (Graph.insert ⟨[⟨7, 0⟩]⟩ ⟨7, 5⟩ = (⟨[⟨7, 0⟩]⟩, 0) ∧
      ∃ e₀, Graph.get ⟨[⟨7, 0⟩]⟩ 0 = some e₀ ∧ e₀.hash = 7) ∧
    (Graph.insert ⟨[⟨7, 0⟩]⟩ ⟨9, 5⟩).1.events = [⟨7, 0⟩] ++ [⟨9, 5⟩] := by
  constructor
  · exact (graph_insert_idempotent_and_monotone ⟨[⟨7, 0⟩]⟩ ⟨7, 5⟩).1 0 (by decide)
  · exact ((graph_insert_idempotent_and_monotone ⟨[⟨7, 0⟩]⟩ ⟨9, 5⟩).2 (by decide)).1

end GraphM

/-! ## Peer list (`src/peer_list/mod.rs`)

The `Peer` struct, `PeerIndex` newtype and `PeerState` bitflags live in files
(`peer.rs`, `peer_index.rs`, `peer_state.rs`) that are declared by
`peer_list/mod.rs` but whose sources are not part of this tree; they are
modelled from the spec: a peer is `{id, state: flag set over {VOTE, SEND,
RECV}, events, last_gossiped_event, accomplice_checkpoint}`, `PeerIndex` is an
index with `OUR` fixed at `0`, and `EventIndex` is the topological index. -/

namespace PeerListM

/-- Modelled from the spec: `PeerState` is a flag set over {VOTE, SEND, RECV};
`|=` is componentwise disjunction. -/
structure PeerState where
  vote : Bool
  send : Bool
  recv : Bool
deriving DecidableEq

/-- Bitwise-or of two flag sets (Rust `|=`). -/
def PeerState.union (a b : PeerState) : PeerState :=
  ⟨a.vote || b.vote, a.send || b.send, a.recv || b.recv⟩

def PeerState.can_vote (s : PeerState) : Bool := s.vote

def PeerState.can_send (s : PeerState) : Bool := s.send

def PeerState.can_recv (s : PeerState) : Bool := s.recv

/-- `PeerState::inactive()`: no flags set. -/
def PeerState.inactive : PeerState := ⟨false, false, false⟩

/-- Modelled from the spec: the per-peer record tracked by `PeerList`
(`peer.rs` is absent from the tree).  Event indices are `Nat` topological
indices. -/
structure Peer where
  id : Nat
  state : PeerState
  last_gossiped_event : Option Nat
  accomplice_event_checkpoint : Option Nat
deriving DecidableEq

/-- `PeerList`: our own peer plus the others; index `0` is `PeerIndex::OUR`,
index `i + 1` addresses `peers[i]`. -/
structure PeerList where
  ourPeer : Peer
  peers : List Peer
deriving DecidableEq

/-- `PeerList::get` (also the non-logging core of `get_known_mut`). -/
def PeerList.get (pl : PeerList) (index : Nat) : Option Peer :=
  if index = 0 then some pl.ourPeer else pl.peers.get? (index - 1)

/-- Replace the peer at `index` (the write-back half of `get_known_mut`). -/
def PeerList.set (pl : PeerList) (index : Nat) (p : Peer) : PeerList :=
  if index = 0 then { pl with ourPeer := p }
  else { pl with peers := pl.peers.set (index - 1) p }

/-- `PeerList::record_gossiped_event_by`, translated verbatim: the update fires
only when `last_gossiped_event` is `Some(current)` with `current < event_index`
(the `.unwrap_or(false)` branch leaves an unset field unset). -/
def PeerList.record_gossiped_event_by (pl : PeerList) (index : Nat)
    (event_index : Nat) : PeerList :=
  match pl.get index with
  | none => pl
  | some peer =>
    if (peer.last_gossiped_event.map
          (fun current => decide (current < event_index))).getD false
    then pl.set index { peer with last_gossiped_event := some event_index }
    else pl

/-- `PeerList::update_accomplice_event_checkpoint_by`, translated verbatim:
updates when the checkpoint is unset (`.unwrap_or(true)`) or has a smaller
topological index. -/
def PeerList.update_accomplice_event_checkpoint_by (pl : PeerList)
    (peer_index : Nat) (event_index : Nat) : PeerList :=
  match pl.get peer_index with
  | none => pl
  | some peer =>
    if (peer.accomplice_event_checkpoint.map
          (fun current => decide (current < event_index))).getD true
    then pl.set peer_index { peer with accomplice_event_checkpoint := some event_index }
    else pl

/-- `PeerList::last_gossiped_event_by`. -/
def PeerList.last_gossiped_event_by (pl : PeerList) (peer_index : Nat) : Option Nat :=
  (pl.get peer_index).bind (fun peer => peer.last_gossiped_event)

/-- `PeerList::accomplice_event_checkpoint_by`. -/
def PeerList.accomplice_event_checkpoint_by (pl : PeerList) (peer_index : Nat) : Option Nat :=
  (pl.get peer_index).bind (fun peer => peer.accomplice_event_checkpoint)

/-- A freshly known peer: both malice checkpoints unset (`Peer::new`). -/
def freshPeer (id : Nat) : Peer := ⟨id, PeerState.inactive, none, none⟩

/-- C4, failing input: `last_gossiped_event` does NOT become set on the first
recorded event.  On a peer list whose peer `1` has never gossiped
(`last_gossiped_event = None`, as every peer starts), recording event `5`
leaves the field `None` — the guard `map(|current| current < event_index)
.unwrap_or(false)` is `false` when the field is unset, and no other code writes
the field, so it can never become set.  The claimed behaviour (the field
becomes `max(previous, 5) = Some 5`) fails; by contrast the sibling
`update_accomplice_event_checkpoint_by` (which uses `.unwrap_or(true)`) does
set its checkpoint on the same input, exactly as the claim describes. -/
theorem record_gossiped_event_stays_unset :
    (PeerList.record_gossiped_event_by ⟨freshPeer 0, [freshPeer 1]⟩ 1 5
        |>.last_gossiped_event_by 1) = none ∧
    (PeerList.update_accomplice_event_checkpoint_by ⟨freshPeer 0, [freshPeer 1]⟩ 1 5
        |>.accomplice_event_checkpoint_by 1) = some 5 := by
  decide

end PeerListM

/-! ## Observation store and `have_voted_for` (`src/observation.rs`,
`src/parsec.rs`) -/

namespace ObsStore

/-- `Observation`, trimmed to what determines an observation's identity and
consensus mode.  The content hash of an observation is modelled by the
observation itself (content addressing: equal hash iff equal serialisation). -/
inductive Obs where
  | genesis (group : List Nat)
  | add (peer_id : Nat)
  | remove (peer_id : Nat)
  | accusation (offender : Nat) (malice : Nat)
  | opaquePayload (payload : Nat)
  | dkgMessage (msg : Nat)
deriving DecidableEq

/-- `Observation::is_opaque`. -/
def Obs.is_opaque : Obs → Bool
  | .opaquePayload _ => true
  | _ => false

/-- `Observation::is_dkg_message`. -/
def Obs.is_dkg_message : Obs → Bool
  | .dkgMessage _ => true
  | _ => false

/-- `ConsensusMode`. -/
inductive ConsensusMode where
  | single
  | supermajority
deriving DecidableEq

/-- `ConsensusMode::of`: opaque payloads use the configured mode, DKG messages
are always `Single`, everything else requires supermajority. -/
def ConsensusMode.of (mode : ConsensusMode) (observation : Obs) : ConsensusMode :=
  if observation.is_opaque then mode
  else if observation.is_dkg_message then ConsensusMode.single
  else ConsensusMode.supermajority

/-- `ObservationKey` (the hash component is the observation itself, see
`Obs`). -/
inductive ObservationKey where
  | single (hash : Obs) (creator : Nat)
  | supermajority (hash : Obs)
deriving DecidableEq

/-- `ObservationKey::new`. -/
def ObservationKey.new (hash : Obs) (creator : Nat) :
    ConsensusMode → ObservationKey
  | ConsensusMode.single => ObservationKey.single hash creator
  | ConsensusMode.supermajority => ObservationKey.supermajority hash

/-- `ObservationInfo`. -/
structure ObservationInfo where
  observation : Obs
  consensused : Bool
  created_by_us : Bool
deriving DecidableEq

/-- `ObservationInfo::new`. -/
def ObservationInfo.new (observation : Obs) : ObservationInfo :=
  ⟨observation, false, false⟩

/-- `ObservationStore = BTreeMap<ObservationKey, ObservationInfo>`, modelled
as an association list with unique keys. -/
abbrev Store := List (ObservationKey × ObservationInfo)

def findInfo : Store → ObservationKey → Option ObservationInfo
  | [], _ => none
  | (k, v) :: rest, key => if k = key then some v else findInfo rest key

def setInfo : Store → ObservationKey → ObservationInfo → Store
  | [], _, _ => []
  | (k, v) :: rest, key, info =>
    if k = key then (k, info) :: rest else (k, v) :: setInfo rest key info

/-- `observations.entry(key).or_insert_with(|| ObservationInfo::new(obs))`
(performed by `Cause::unpack` / `VoteKey::new` when a vote-carrying event is
built). -/
def orInsert (store : Store) (key : ObservationKey) (observation : Obs) : Store :=
  match findInfo store key with
  | some _ => store
  | none => store ++ [(key, ObservationInfo.new observation)]

/-- The `add_event` mutation: `if our { info.created_by_us = true }` on the
entry found under the event's payload key. -/
def setCreatedByUs (store : Store) (creator : Nat) (key : ObservationKey) : Store :=
  if creator = 0 then
    match findInfo store key with
    | some info => setInfo store key { info with created_by_us := true }
    | none => store
  else store

/-- Ingesting one vote-carrying event by `creator` (index `0` is ourselves):
the vote key is built from the payload, the event's creator and the consensus
mode (`VoteKey::new`), the observation is stored if absent (`Cause::unpack`),
and then `Parsec::add_event` sets `created_by_us` on the stored entry exactly
when the event is ours (`event.creator() == PeerIndex::OUR`). -/
def addVoteEvent (mode : ConsensusMode) (store : Store) (creator : Nat)
    (observation : Obs) : Store :=
  setCreatedByUs
    (orInsert store (ObservationKey.new observation creator (mode.of observation)) observation)
    creator
    (ObservationKey.new observation creator (mode.of observation))

/-- Ingesting a list of vote-carrying events in order. -/
def addVoteEvents (mode : ConsensusMode) (store : Store) :
    List (Nat × Obs) → Store
  | [] => store
  | (creator, observation) :: rest =>
    addVoteEvents mode (addVoteEvent mode store creator observation) rest

/-- `Parsec::have_voted_for`: looks the observation up under OUR key (creator
index `0`) and reads `created_by_us`. -/
def have_voted_for (mode : ConsensusMode) (store : Store) (observation : Obs) : Bool :=
  ((findInfo store (ObservationKey.new observation 0 (mode.of observation))).map
      (fun info => info.created_by_us)).getD false

theorem findInfo_setInfo (store : Store) (key : ObservationKey)
    (info : ObservationInfo) (k : ObservationKey) :
    findInfo (setInfo store key info) k =
      if key = k ∧ (findInfo store key).isSome then some info else findInfo store k := by
  induction store with
  | nil => simp [setInfo, findInfo]
  | cons hd tl ih =>
    obtain ⟨k₀, v₀⟩ := hd
    by_cases h₀ : k₀ = key
    · subst h₀
      by_cases hk : k₀ = k <;> simp [setInfo, findInfo, hk, ih]
    · by_cases hk : k₀ = k
      · subst hk
        have : ¬(key = k₀) := fun h => h₀ h.symm
        simp [setInfo, findInfo, h₀, this]
      · simp [setInfo, findInfo, h₀, hk, ih]

theorem findInfo_append (s₁ s₂ : Store) (k : ObservationKey) :
    findInfo (s₁ ++ s₂) k =
      match findInfo s₁ k with
      | some v => some v
      | none => findInfo s₂ k := by
  induction s₁ with
  | nil => simp [findInfo]
  | cons hd tl ih =>
    obtain ⟨k₀, v₀⟩ := hd
    by_cases hk : k₀ = k <;> simp [findInfo, hk, ih]

/-- The observation (the hash) is recoverable from a vote key: two keys built
from different observations are never equal. -/
theorem ObservationKey.new_inj {v q : Obs} {c c' : Nat} {m m' : ConsensusMode}
    (h : ObservationKey.new v c m = ObservationKey.new q c' m') : v = q := by
  cases m <;> cases m' <;> simp [ObservationKey.new] at h <;> tauto

/-- `have_voted_for` after an `orInsert`: unchanged, because a fresh entry
carries `created_by_us = false`. -/
theorem have_voted_for_orInsert (mode : ConsensusMode) (store : Store)
    (key : ObservationKey) (observation queried : Obs) :
    have_voted_for mode (orInsert store key observation) queried =
      have_voted_for mode store queried := by
  cases h : findInfo store key with
  | some v => simp [orInsert, h]
  | none =>
    simp only [orInsert, h, have_voted_for]
    rw [findInfo_append]
    cases hq : findInfo store (ObservationKey.new queried 0 (mode.of queried)) with
    | some v => simp [hq]
    | none =>
      simp only [hq, findInfo]
      split
      · simp [ObservationInfo.new]
      · simp [findInfo]

/-- `orInsert` at a key leaves an entry at that key. -/
theorem findInfo_orInsert_isSome (store : Store) (key : ObservationKey)
    (observation : Obs) :
    (findInfo (orInsert store key observation) key).isSome := by
  cases h : findInfo store key with
  | some v => simp [orInsert, h]
  | none =>
    simp only [orInsert, h]
    rw [findInfo_append]
    simp [h, findInfo]

/-- One step: adding a vote-carrying event makes `have_voted_for` true for its
payload iff we created it; other observations are untouched. -/
theorem have_voted_for_addVoteEvent (mode : ConsensusMode) (store : Store)
    (creator : Nat) (voted queried : Obs) :
    have_voted_for mode (addVoteEvent mode store creator voted) queried =
      (have_voted_for mode store queried ||
        (decide (creator = 0) && decide (voted = queried))) := by
  classical
  unfold addVoteEvent setCreatedByUs
  by_cases hc : creator = 0
  · subst hc
    simp only [if_pos rfl]
    have hbase := have_voted_for_orInsert mode store
      (ObservationKey.new voted 0 (mode.of voted)) voted queried
    have hins := findInfo_orInsert_isSome store
      (ObservationKey.new voted 0 (mode.of voted)) voted
    cases hfound : findInfo
        (orInsert store (ObservationKey.new voted 0 (mode.of voted)) voted)
        (ObservationKey.new voted 0 (mode.of voted)) with
    | none => rw [hfound] at hins; simp at hins
    | some info =>
      simp only [hfound, if_true]
      by_cases hvq : voted = queried
      · subst hvq
        unfold have_voted_for
        rw [findInfo_setInfo]
        simp [hfound]
      · have hkey : ObservationKey.new voted 0 (mode.of voted) ≠
            ObservationKey.new queried 0 (mode.of queried) :=
          fun h => hvq (ObservationKey.new_inj h)
        unfold have_voted_for
        rw [findInfo_setInfo]
        simp only [hkey, false_and, if_false, hvq, decide_True, decide_False,
          Bool.and_false, Bool.or_false]
        exact hbase
  · simp only [hc, if_false, decide_False, Bool.false_and, Bool.or_false]
    exact have_voted_for_orInsert mode store _ voted queried

/-- C10: `have_voted_for(observation)` is true exactly when an event created by
the owning peer itself (creator index `0`) carrying a vote for that observation
has been added; ingesting other peers' votes for the same observation never
makes it true, because `created_by_us` is set only when the vote-carrying
event's creator is the owner. -/
theorem have_voted_for_iff_our_vote (mode : ConsensusMode)
    (ops : List (Nat × Obs)) (observation : Obs) :
    have_voted_for mode (addVoteEvents mode [] ops) observation = true ↔
      (0, observation) ∈ ops := by
  suffices h : ∀ store,
      have_voted_for mode (addVoteEvents mode store ops) observation = true ↔
        (have_voted_for mode store observation = true ∨ (0, observation) ∈ ops) by
    rw [h []]
    simp [have_voted_for, findInfo]
  induction ops with
  | nil => simp [addVoteEvents]
  | cons op rest ih =>
    intro store
    obtain ⟨creator, voted⟩ := op
    simp only [addVoteEvents]
    rw [ih, have_voted_for_addVoteEvent]
    simp only [Bool.or_eq_true, Bool.and_eq_true, decide_eq_true_eq,
      List.mem_cons, Prod.mk.injEq]
    constructor
    · rintro (⟨h | ⟨h1, h2⟩⟩ | h)
      · exact Or.inl h
      · exact Or.inr (Or.inl ⟨h1.symm, h2.symm⟩)
      · exact Or.inr (Or.inr h)
    · rintro (h | ⟨h1, h2⟩ | h)
      · exact Or.inl (Or.inl h)
      · exact Or.inl (Or.inr ⟨h1.symm, h2.symm⟩)
      · exact Or.inr h

end ObsStore

/-! ## Duplicate-vote detection (`src/parsec.rs`, `detect_duplicate_vote`) -/

namespace DupVote

/-- An event as seen by `detect_duplicate_vote`: its hash and the payload its
vote carries, if any (`event_payload` resolves the vote key in the observation
store; `none` for non-vote events). -/
structure EventV where
  hash : Nat
  payload : Option ObsStore.Obs
deriving DecidableEq

/-- `Parsec::detect_duplicate_vote`, for an incoming `event` given
`creatorEvents`, the events already recorded for `event.creator()` in insertion
order (`peer_list.peer_events(event.creator())`; the incoming event itself is
not yet among them, because the detector runs before the event is added).  The
source walks the creator's events newest-first (`.rev()`), keeps those carrying
the same payload, and takes at most two; exactly one duplicate yields the
accusation `DuplicateVote(other_hash, event.hash)`. -/
def detect_duplicate_vote (creatorEvents : List EventV) (event : EventV) :
    Option (Nat × Nat) :=
  match event.payload with
  | none => none
  | some payload =>
    match ((creatorEvents.reverse.filter
        (fun e => e.payload == some payload)).map (fun e => e.hash)).take 2 with
    | [] => none
    | [other_hash] => some (other_hash, event.hash)
    | _ :: _ :: _ => none

/-- C7: a `DuplicateVote` accusation is produced exactly on the second
duplicate — iff the ingested event carries a vote whose payload is carried by
exactly one earlier event of the same creator — and it pairs that single
earlier event's hash with the new event's hash.  With zero or at least two
earlier duplicates nothing is produced. -/
theorem detect_duplicate_vote_iff (creatorEvents : List EventV) (event : EventV)
    (acc : Nat × Nat) :
    detect_duplicate_vote creatorEvents event = some acc ↔
      ∃ payload e, event.payload = some payload ∧
        creatorEvents.filter (fun x => x.payload == some payload) = [e] ∧
        acc = (e.hash, event.hash) := by
  cases hp : event.payload with
  | none => simp [detect_duplicate_vote, hp]
  | some payload =>
    have hrev : creatorEvents.reverse.filter (fun e => e.payload == some payload) =
        (creatorEvents.filter (fun e => e.payload == some payload)).reverse := by
      rw [List.filter_reverse]
    rcases hfl : creatorEvents.filter (fun e => e.payload == some payload) with
      _ | ⟨e₁, rest⟩
    · constructor
      · intro h
        simp [detect_duplicate_vote, hp, hrev, hfl] at h
      · rintro ⟨p', e', hps, he', -⟩
        obtain rfl := Option.some.inj hps
        rw [hfl] at he'
        cases he'
    · rcases rest with _ | ⟨e₂, rest⟩
      · constructor
        · intro h
          simp only [detect_duplicate_vote, hp, hrev, hfl, List.reverse_singleton,
            List.map_cons, List.map_nil, List.take_cons, List.take_nil] at h
          exact ⟨payload, e₁, rfl, hfl, by cases h; rfl⟩
        · rintro ⟨p', e', hps, he', hacc⟩
          obtain rfl := Option.some.inj hps
          rw [hfl] at he'
          obtain rfl := List.cons.inj he' |>.1
          simp [detect_duplicate_vote, hp, hrev, hfl, hacc]
      · have hshape : ∃ c d tl,
            ((creatorEvents.filter
              (fun e => e.payload == some payload)).map (fun e => e.hash)).reverse =
              c :: d :: tl := by
          have hlen : (((creatorEvents.filter
              (fun e => e.payload == some payload)).map (fun e => e.hash)).reverse).length =
              rest.length + 2 := by
            rw [hfl]
            simp
          rcases hl : ((creatorEvents.filter
              (fun e => e.payload == some payload)).map (fun e => e.hash)).reverse with
            _ | ⟨c, _ | ⟨d, tl⟩⟩
          · rw [hl] at hlen; simp at hlen
          · rw [hl] at hlen; simp at hlen
          · exact ⟨c, d, tl, hl⟩
        obtain ⟨c, d, tl, hshape⟩ := hshape
        constructor
        · intro h
          simp only [detect_duplicate_vote, hp, List.filter_reverse,
            List.map_reverse] at h
          rw [hshape] at h
          simp [List.take_succ_cons] at h
        · rintro ⟨p', e', hps, he', -⟩
          obtain rfl := Option.some.inj hps
          rw [hfl] at he'
          cases he'

end DupVote

/-! ## Deciding a payload (`src/parsec.rs`, `compute_payload_for_consensus`) -/

namespace Consensus

/-- `ObservationKey`, with the observation hash as a `Nat`. -/
inductive OKey where
  | single (hash : Nat) (creator : Nat)
  | supermajority (hash : Nat)
deriving DecidableEq

/-- `ObservationKey::hash`. -/
def OKey.hash : OKey → Nat
  | .single h _ => h
  | .supermajority h => h

/-- Rust `Iterator::max_by`: a fold in which the later element wins ties
(`std::cmp::max_by(v1, v2, cmp)` returns `v1` only when `cmp(v1, v2) ==
Greater`). -/
def rustMaxBy (cmp : α → α → Ordering) : List α → Option α
  | [] => none
  | x :: xs =>
    some (xs.foldl (fun acc y => if cmp acc y = Ordering.gt then acc else y) x)

/-- The `payloads` vector before sorting: for every `(peer_index, decision)`
with `decision == true`, that peer's `first_interesting_content_by`. -/
def payloadsOf (first_interesting_content_by : Nat → Option OKey)
    (decided_meta_votes : List (Nat × Bool)) : List OKey :=
  decided_meta_votes.filterMap
    (fun pv => if pv.2 then first_interesting_content_by pv.1 else none)

/-- `payloads.sort_by(|a, b| a.hash().cmp(b.hash()))`: Rust's stable sort by
hash, modelled by the (stable) `List.mergeSort`. -/
def sortedPayloads (first_interesting_content_by : Nat → Option OKey)
    (decided_meta_votes : List (Nat × Bool)) : List OKey :=
  (payloadsOf first_interesting_content_by decided_meta_votes).mergeSort
    (fun a b => decide (a.hash ≤ b.hash))

/-- `Parsec::compute_payload_for_consensus`: sort the collected payload keys by
hash, then `max_by` on the multiplicity of each key in the (sorted) vector. -/
def compute_payload_for_consensus (first_interesting_content_by : Nat → Option OKey)
    (decided_meta_votes : List (Nat × Bool)) : Option OKey :=
  rustMaxBy
    (fun lhs rhs =>
      compare
        ((sortedPayloads first_interesting_content_by decided_meta_votes).count lhs)
        ((sortedPayloads first_interesting_content_by decided_meta_votes).count rhs))
    (sortedPayloads first_interesting_content_by decided_meta_votes)

/-- The fold underlying `rustMaxBy` never decreases the figure of merit. -/
theorem rustMaxBy_fold_max (f : α → Nat) (x : α) (xs : List α) :
    ∀ y ∈ x :: xs,
      f y ≤ f (xs.foldl
        (fun acc z => if compare (f acc) (f z) = Ordering.gt then acc else z) x) := by
  induction xs generalizing x with
  | nil =>
    intro y hy
    rcases List.mem_singleton.mp hy with rfl
    exact Nat.le_refl _
  | cons z zs ih =>
    intro y hy
    have hstep : f x ≤ f (if compare (f x) (f z) = Ordering.gt then x else z) ∧
        f z ≤ f (if compare (f x) (f z) = Ordering.gt then x else z) := by
      by_cases h : compare (f x) (f z) = Ordering.gt
      · rw [Nat.compare_eq_gt] at h
        simp only [if_pos (Nat.compare_eq_gt.mpr h)]
        exact ⟨Nat.le_refl _, Nat.le_of_lt h⟩
      · simp only [if_neg h]
        rw [Nat.compare_eq_gt] at h
        exact ⟨Nat.le_of_not_lt h, Nat.le_refl _⟩
    have hhead := ih (if compare (f x) (f z) = Ordering.gt then x else z)
      _ (List.mem_cons_self _ _)
    rcases List.mem_cons.mp hy with rfl | hy
    · exact Nat.le_trans hstep.1 hhead
    · rcases List.mem_cons.mp hy with rfl | hy
      · exact Nat.le_trans hstep.2 hhead
      · exact ih _ y (List.mem_cons_of_mem _ hy)

/-- The fold underlying `rustMaxBy` returns the LAST element attaining the
maximum: the list splits around the result, and everything after it is
strictly smaller. -/
theorem rustMaxBy_fold_last (f : α → Nat) (x : α) (xs : List α) :
    ∃ l₁ l₂,
      x :: xs = l₁ ++ (xs.foldl
          (fun acc z => if compare (f acc) (f z) = Ordering.gt then acc else z) x) :: l₂ ∧
      ∀ y ∈ l₂,
        f y < f (xs.foldl
          (fun acc z => if compare (f acc) (f z) = Ordering.gt then acc else z) x) := by
  induction xs generalizing x with
  | nil => exact ⟨[], [], rfl, by intro y hy; cases hy⟩
  | cons z zs ih =>
    by_cases h : compare (f x) (f z) = Ordering.gt
    · obtain ⟨l₁, l₂, hsplit, hlt⟩ := ih x
      have hfold : (z :: zs).foldl
          (fun acc w => if compare (f acc) (f w) = Ordering.gt then acc else w) x =
          zs.foldl
          (fun acc w => if compare (f acc) (f w) = Ordering.gt then acc else w) x := by
        simp [List.foldl_cons, if_pos h]
      cases l₁ with
      | nil =>
        have hx : x = zs.foldl
            (fun acc w => if compare (f acc) (f w) = Ordering.gt then acc else w) x :=
          (List.cons.inj (by simpa using hsplit)).1
        have hzs : zs = l₂ := (List.cons.inj (by simpa using hsplit)).2
        refine ⟨[], z :: l₂, ?_, ?_⟩
        · rw [hfold, ← hx, List.nil_append]
          rw [← hzs]
        · intro y hy
          rw [hfold]
          rcases List.mem_cons.mp hy with rfl | hy
          · rw [← hx]
            exact Nat.compare_eq_gt.mp h
          · exact hlt y hy
      | cons a l₁ =>
        have hrest : zs = l₁ ++ (zs.foldl
            (fun acc w => if compare (f acc) (f w) = Ordering.gt then acc else w) x) :: l₂ :=
          (List.cons.inj hsplit).2
        refine ⟨x :: z :: l₁, l₂, ?_, ?_⟩
        · rw [hfold]
          conv_lhs => rw [hrest]
          simp [List.cons_append]
        · intro y hy
          rw [hfold]
          exact hlt y hy
    · obtain ⟨l₁, l₂, hsplit, hlt⟩ := ih z
      have hfold : (z :: zs).foldl
          (fun acc w => if compare (f acc) (f w) = Ordering.gt then acc else w) x =
          zs.foldl
          (fun acc w => if compare (f acc) (f w) = Ordering.gt then acc else w) z := by
        simp [List.foldl_cons, if_neg h]
      refine ⟨x :: l₁, l₂, ?_, ?_⟩
      · rw [hfold]
        simp only [List.cons_append]
        rw [hsplit]
      · intro y hy
        rw [hfold]
        exact hlt y hy

/-- C1, corrected tie-break: if `compute_payload_for_consensus` returns a key
`k`, then `k` is one of the collected payload keys, `k` attains the maximum
multiplicity among them, and every key tying `k` on that maximum multiplicity
has hash at most `k.hash` — i.e. on ties the hash-LAST (hash-largest) key of
the hash-sorted vector is chosen, because Rust's `max_by` keeps the last
maximal element. -/
theorem compute_payload_max_multiplicity_hash_last
    (fic : Nat → Option OKey) (decided : List (Nat × Bool)) (k : OKey)
    (h : compute_payload_for_consensus fic decided = some k) :
    k ∈ payloadsOf fic decided ∧
    (∀ y ∈ payloadsOf fic decided,
      (payloadsOf fic decided).count y ≤ (payloadsOf fic decided).count k) ∧
    (∀ y ∈ payloadsOf fic decided,
      (payloadsOf fic decided).count y = (payloadsOf fic decided).count k →
        y.hash ≤ k.hash) := by
  classical
  have hperm : List.Perm (sortedPayloads fic decided) (payloadsOf fic decided) :=
    List.mergeSort_perm _ _
  have hsortedP : List.Pairwise
      (fun a b : OKey => (decide (a.hash ≤ b.hash) : Bool) = true)
      (sortedPayloads fic decided) := by
    apply List.sorted_mergeSort
    · intro a b c hab hbc
      simp only [decide_eq_true_eq] at hab hbc ⊢
      exact Nat.le_trans hab hbc
    · intro a b
      rcases Nat.le_total a.hash b.hash with hab | hba
      · simp [hab]
      · simp [hba]
  have hcount : ∀ y, (sortedPayloads fic decided).count y =
      (payloadsOf fic decided).count y := fun y => hperm.count_eq y
  rcases hs : sortedPayloads fic decided with _ | ⟨x, xs⟩
  · rw [compute_payload_for_consensus, hs] at h
    cases h
  · rw [compute_payload_for_consensus, hs] at h
    simp only [rustMaxBy, Option.some.injEq] at h
    have hcountx : ∀ y : OKey, (x :: xs).count y = (payloadsOf fic decided).count y := by
      intro y
      rw [← hs]
      exact hcount y
    have hmax := rustMaxBy_fold_max (fun y => (x :: xs).count y) x xs
    obtain ⟨l₁, l₂, hsplit, hlt⟩ :=
      rustMaxBy_fold_last (fun y => (x :: xs).count y) x xs
    rw [h] at hmax hsplit hlt
    have hmemk : k ∈ x :: xs := by
      rw [hsplit]
      exact List.mem_append_right _ (List.mem_cons_self _ _)
    have hmemP : ∀ y : OKey, y ∈ payloadsOf fic decided ↔ y ∈ x :: xs := by
      intro y
      rw [← hs]
      exact (hperm.mem_iff).symm
    refine ⟨(hmemP k).mpr hmemk, ?_, ?_⟩
    · intro y hy
      have := hmax y ((hmemP y).mp hy)
      simpa only [hcountx] using this
    · intro y hy hcnt
      have hy' : y ∈ x :: xs := (hmemP y).mp hy
      have hyf : (x :: xs).count y = (x :: xs).count k := by
        rw [hcountx, hcountx]
        exact hcnt
      rw [hsplit] at hy'
      rcases List.mem_append.mp hy' with hy₁ | hy₂
      · have hpair : List.Pairwise
            (fun a b : OKey => (decide (a.hash ≤ b.hash) : Bool) = true)
            (l₁ ++ k :: l₂) := by
          rw [← hsplit, ← hs]
          exact hsortedP
        have := (List.pairwise_append.mp hpair).2.2 y hy₁ k (List.mem_cons_self _ _)
        exact of_decide_eq_true this
      · rcases List.mem_cons.mp hy₂ with rfl | hy₂
        · exact Nat.le_refl _
        · exact absurd hyf (Nat.ne_of_lt (hlt y hy₂))

/-- C1, counterexample to the claimed tie-break: two voters decide `true` with
distinct first interesting keys of hashes 1 and 2; both keys have multiplicity
1 (a tie), and the source returns the hash-LARGEST key `Supermajority(2)`, not
the hash-smallest `Supermajority(1)` required by the claim. -/
theorem compute_payload_tie_counterexample :
    compute_payload_for_consensus
      (fun i => if i = 0 then some (OKey.supermajority 1)
        else if i = 1 then some (OKey.supermajority 2) else none)
      [(0, true), (1, true)] = some (OKey.supermajority 2) ∧
    (OKey.supermajority 1).hash < (OKey.supermajority 2).hash ∧
    (payloadsOf
      (fun i => if i = 0 then some (OKey.supermajority 1)
        else if i = 1 then some (OKey.supermajority 2) else none)
      [(0, true), (1, true)]).count (OKey.supermajority 1) =
    (payloadsOf
      (fun i => if i = 0 then some (OKey.supermajority 1)
        else if i = 1 then some (OKey.supermajority 2) else none)
      [(0, true), (1, true)]).count (OKey.supermajority 2) := by
  have hsorted : sortedPayloads
      (fun i => if i = 0 then some (OKey.supermajority 1)
        else if i = 1 then some (OKey.supermajority 2) else none)
      [(0, true), (1, true)] = [OKey.supermajority 1, OKey.supermajority 2] := by
    have hpay : payloadsOf
        (fun i => if i = 0 then some (OKey.supermajority 1)
          else if i = 1 then some (OKey.supermajority 2) else none)
        [(0, true), (1, true)] = [OKey.supermajority 1, OKey.supermajority 2] := rfl
    rw [sortedPayloads, hpay]
    apply List.mergeSort_of_sorted
    decide
  refine ⟨?_, by decide, by decide⟩
  rw [compute_payload_for_consensus, hsorted]
  simp only [rustMaxBy, List.foldl_cons, List.foldl_nil]
  decide

/-- Witness for the corrected C1 theorem at a concrete input (voters 0 and 1
decide true on key `Supermajority(1)`, voter 2 on `Supermajority(2)`): the
returned key `Supermajority(1)` is a collected key of maximum multiplicity and
every tied key has hash at most its hash. -/
theorem compute_payload_witness :
    OKey.supermajority 1 ∈ payloadsOf
      (fun i => if i ≤ 1 then some (OKey.supermajority 1)
        else some (OKey.supermajority 2)) [(0, true), (1, true), (2, true)] ∧
    (∀ y ∈ payloadsOf
      (fun i => if i ≤ 1 then some (OKey.supermajority 1)
        else some (OKey.supermajority 2)) [(0, true), (1, true), (2, true)],
      (payloadsOf (fun i => if i ≤ 1 then some (OKey.supermajority 1)
        else some (OKey.supermajority 2)) [(0, true), (1, true), (2, true)]).count y ≤
      (payloadsOf (fun i => if i ≤ 1 then some (OKey.supermajority 1)
        else some (OKey.supermajority 2)) [(0, true), (1, true), (2, true)]).count
        (OKey.supermajority 1)) ∧
    (∀ y ∈ payloadsOf
      (fun i => if i ≤ 1 then some (OKey.supermajority 1)
        else some (OKey.supermajority 2)) [(0, true), (1, true), (2, true)],
      (payloadsOf (fun i => if i ≤ 1 then some (OKey.supermajority 1)
        else some (OKey.supermajority 2)) [(0, true), (1, true), (2, true)]).count y =
      (payloadsOf (fun i => if i ≤ 1 then some (OKey.supermajority 1)
        else some (OKey.supermajority 2)) [(0, true), (1, true), (2, true)]).count
        (OKey.supermajority 1) →
        y.hash ≤ (OKey.supermajority 1).hash) := by
  apply compute_payload_max_multiplicity_hash_last
    (fun i => if i ≤ 1 then some (OKey.supermajority 1)
      else some (OKey.supermajority 2)) [(0, true), (1, true), (2, true)]
  have hsorted : sortedPayloads
      (fun i => if i ≤ 1 then some (OKey.supermajority 1)
        else some (OKey.supermajority 2)) [(0, true), (1, true), (2, true)] =
      [OKey.supermajority 1, OKey.supermajority 1, OKey.supermajority 2] := by
    have hpay : payloadsOf
        (fun i => if i ≤ 1 then some (OKey.supermajority 1)
          else some (OKey.supermajority 2)) [(0, true), (1, true), (2, true)] =
        [OKey.supermajority 1, OKey.supermajority 1, OKey.supermajority 2] := rfl
    rw [sortedPayloads, hpay]
    apply List.mergeSort_of_sorted
    decide
  rw [compute_payload_for_consensus, hsorted]
  simp only [rustMaxBy, List.foldl_cons, List.foldl_nil]
  decide

end Consensus

/-! ## Common coin (`src/common_coin.rs`) -/

namespace Coin

/-- Opaque signature share. -/
abbrev Share := Nat

/-- Peer public id (totally ordered, as required of `PublicId`). -/
abbrev PeerId := Nat

/-- Modelled from the spec: the threshold-signature primitives are an external
collaborator (§6).  `PublicKeySet` exposes `threshold`, position-indexed share
verification (`public_key_share(idx).verify(share, msg)`, here
`verify idx share msg`), and the parity of the unique combined signature on a
message (`combinedParity msg`). -/
structure PublicKeySet where
  threshold : Nat
  verify : Nat → Share → Nat → Bool
  combinedParity : Nat → Bool

/-- Modelled from the spec: `PublicKeySet::combine_signatures` interpolates the
unique signature out of the supplied shares and fails with `NotEnoughShares`
when at most `threshold` shares are supplied; on verified (hence correct)
shares carried at distinct indices it succeeds exactly when strictly more than
`threshold` are supplied, and the combined signature's parity depends only on
the signed message. -/
def PublicKeySet.combine_signatures (pks : PublicKeySet) (msg : Nat)
    (shares : List (Nat × Share)) : Option Bool :=
  if shares.length ≤ pks.threshold then none else some (pks.combinedParity msg)

/-- `CommonCoin`: the `BTreeSet<P>` of public ids is modelled as a
duplicate-free list in iteration order; the secret key share plays no role in
`verify_share`/`get_value`. -/
structure CommonCoin where
  public_ids : List PeerId
  public_key_set : PublicKeySet

/-- `BTreeMap<P, SignatureShare>::get`, on the association-list model. -/
def lookupShare : List (PeerId × Share) → PeerId → Option Share
  | [], _ => none
  | (p, s) :: rest, q => if p = q then some s else lookupShare rest q

/-- `CommonCoin::verify_share`: find the author's position among the public
ids, then verify the share against the position-indexed public key share;
unknown authors never verify. -/
def CommonCoin.verify_share (c : CommonCoin) (round_hash : Nat) (author : PeerId)
    (sig_share : Share) : Bool :=
  match c.public_ids.findIdx? (fun id => id == author) with
  | none => false
  | some author_idx => c.public_key_set.verify author_idx sig_share round_hash

/-- `CommonCoin::get_value`: bail out if at most `threshold` shares are
supplied; otherwise combine the position-indexed shares that individually
verify, and return the combined signature's parity. -/
def CommonCoin.get_value (c : CommonCoin) (round_hash : Nat)
    (shares : List (PeerId × Share)) : Option Bool :=
  if shares.length ≤ c.public_key_set.threshold then none
  else
    c.public_key_set.combine_signatures round_hash
      ((c.public_ids.enum).filterMap (fun ip =>
        (lookupShare shares ip.2).bind (fun share =>
          if c.public_key_set.verify ip.1 share round_hash
          then some (ip.1, share) else none)))

/-- A successful share lookup means the key is present. -/
theorem lookupShare_isSome_mem {shares : List (PeerId × Share)} {p : PeerId}
    (h : (lookupShare shares p).isSome) : p ∈ shares.map Prod.fst := by
  induction shares with
  | nil => simp [lookupShare] at h
  | cons hd tl ih =>
    obtain ⟨q, s⟩ := hd
    by_cases hq : q = p
    · simp [hq]
    · simp only [lookupShare, if_neg hq] at h
      simp [ih h]

/-- In a map with duplicate-free keys, each entry is found by its own key. -/
theorem lookupShare_of_mem_nodup {shares : List (PeerId × Share)}
    (hkeys : (shares.map Prod.fst).Nodup) {p : PeerId} {s : Share}
    (hmem : (p, s) ∈ shares) : lookupShare shares p = some s := by
  induction shares with
  | nil => cases hmem
  | cons hd tl ih =>
    obtain ⟨q, t⟩ := hd
    simp only [List.map_cons, List.nodup_cons] at hkeys
    rcases List.mem_cons.mp hmem with heq | hmem'
    · cases heq
      simp [lookupShare]
    · have hne : q ≠ p := by
        intro hqp
        apply hkeys.1
        subst hqp
        exact List.mem_map.mpr ⟨(q, s), hmem', rfl⟩
      simp only [lookupShare, if_neg hne]
      exact ih hkeys.2 hmem'

/-- In a duplicate-free id list, the position of the `i`-th element is `i`. -/
theorem findIdx_of_enum_nodup {ids : List PeerId} (hids : ids.Nodup)
    {i : Nat} {p : PeerId} (hmem : (i, p) ∈ ids.enum) :
    ids.findIdx? (fun id => id == p) = some i := by
  have hget : ids.get? i = some p := List.mem_enum_iff_get?.mp hmem
  have hlt : i < ids.length := by
    rcases List.get?_eq_some.mp hget with ⟨h, -⟩
    exact h
  have hgetElem : ids[i] = p := by
    rcases List.get?_eq_some.mp hget with ⟨h, heq⟩
    simpa [List.get_eq_getElem] using heq
  rw [List.findIdx?_eq_some_iff_getElem]
  refine ⟨hlt, by simp [hgetElem], ?_⟩
  intro j hji
  have hjlt : j < ids.length := Nat.lt_trans hji hlt
  have hne : ids[j] ≠ ids[i] := by
    intro hcontra
    have := (List.Nodup.getElem_inj_iff hids).mp hcontra
    omega
  simp only [beq_iff_eq]
  rw [hgetElem] at hne
  exact hne

/-- The G-predicate: the share supplied for `p`, if any, verifies as `p`'s. -/
def sharedVerifies (c : CommonCoin) (round_hash : Nat)
    (shares : List (PeerId × Share)) (p : PeerId) : Bool :=
  match lookupShare shares p with
  | none => false
  | some s => c.verify_share round_hash p s

/-- Counting the shares that verify author-by-author equals counting the
public ids whose supplied share verifies (both lists duplicate-free). -/
theorem verified_count_eq (c : CommonCoin) (round_hash : Nat)
    (shares : List (PeerId × Share)) (hids : c.public_ids.Nodup)
    (hkeys : (shares.map Prod.fst).Nodup) :
    ((c.public_ids.enum).filterMap (fun ip =>
        (lookupShare shares ip.2).bind (fun share =>
          if c.public_key_set.verify ip.1 share round_hash
          then some (ip.1, share) else none))).length =
      (shares.filter (fun ps => c.verify_share round_hash ps.1 ps.2)).length := by
  classical
  rw [List.length_filterMap_eq_countP]
  have hcongr : ∀ ip ∈ c.public_ids.enum,
      ((lookupShare shares ip.2).bind (fun share =>
        if c.public_key_set.verify ip.1 share round_hash
        then some (ip.1, share) else none)).isSome = true ↔
      sharedVerifies c round_hash shares ip.2 = true := by
    rintro ⟨i, p⟩ hmem
    have hidx := findIdx_of_enum_nodup hids hmem
    cases hl : lookupShare shares p with
    | none => simp [hl, sharedVerifies]
    | some s =>
      simp only [hl, Option.bind_some, sharedVerifies, CommonCoin.verify_share, hidx]
      by_cases hv : c.public_key_set.verify i s round_hash <;> simp [hv]
  rw [List.countP_congr hcongr]
  have henum : List.countP (fun ip => sharedVerifies c round_hash shares ip.2)
      c.public_ids.enum =
      List.countP (fun p => sharedVerifies c round_hash shares p) c.public_ids := by
    conv_rhs => rw [← List.enum_map_snd c.public_ids]
    rw [List.countP_map]
    rfl
  rw [henum]
  -- Right-hand side: count over the shares list equals count over its keys.
  have hrhs : (shares.filter (fun ps => c.verify_share round_hash ps.1 ps.2)).length =
      List.countP (fun p => sharedVerifies c round_hash shares p)
        (shares.map Prod.fst) := by
    rw [← List.countP_eq_length_filter, List.countP_map]
    apply List.countP_congr
    rintro ⟨p, s⟩ hmem
    have hl : lookupShare shares p = some s := lookupShare_of_mem_nodup hkeys hmem
    simp [Function.comp, sharedVerifies, hl]
  rw [hrhs]
  -- Both sides now count the same predicate over two duplicate-free lists
  -- with the same satisfying members.
  rw [List.countP_eq_length_filter, List.countP_eq_length_filter]
  have hperm : List.Perm
      (c.public_ids.filter (fun p => sharedVerifies c round_hash shares p))
      ((shares.map Prod.fst).filter (fun p => sharedVerifies c round_hash shares p)) := by
    rw [List.perm_ext_iff_of_nodup
      (hids.filter (fun p => sharedVerifies c round_hash shares p))
      (hkeys.filter (fun p => sharedVerifies c round_hash shares p))]
    intro p
    simp only [List.mem_filter, and_congr_left_iff]
    intro hp
    constructor
    · intro _
      apply lookupShare_isSome_mem
      unfold sharedVerifies at hp
      cases hl : lookupShare shares p with
      | none => rw [hl] at hp; cases hp
      | some s => simp [hl]
    · intro _
      unfold sharedVerifies at hp
      cases hl : lookupShare shares p with
      | none => rw [hl] at hp; cases hp
      | some s =>
        rw [hl] at hp
        unfold CommonCoin.verify_share at hp
        cases hidx : c.public_ids.findIdx? (fun id => id == p) with
        | none => rw [hidx] at hp; cases hp
        | some i =>
          have := List.findIdx?_eq_some_iff_getElem.mp hidx
          obtain ⟨hlt, hbeq, -⟩ := this
          have : c.public_ids[i] = p := by simpa using hbeq
          rw [← this]
          exact List.getElem_mem hlt
  exact hperm.length_eq

/-- C3: `CommonCoin::get_value` returns `Some(parity)` iff strictly more than
`threshold` of the supplied shares verify against their authors'
position-indexed public key shares (shares failing verification never count);
when it does, the value is the parity of the combined signature on the round
hash.  Hypotheses: the id set and the share-map keys are duplicate-free
(`BTreeSet`/`BTreeMap` invariants). -/
theorem get_value_characterisation (c : CommonCoin) (round_hash : Nat)
    (shares : List (PeerId × Share)) (hids : c.public_ids.Nodup)
    (hkeys : (shares.map Prod.fst).Nodup) :
    c.get_value round_hash shares =
      (if c.public_key_set.threshold <
          (shares.filter (fun ps => c.verify_share round_hash ps.1 ps.2)).length
       then some (c.public_key_set.combinedParity round_hash) else none) := by
  have hcount := verified_count_eq c round_hash shares hids hkeys
  have hle : (shares.filter (fun ps => c.verify_share round_hash ps.1 ps.2)).length ≤
      shares.length := List.length_filter_le _ _
  unfold CommonCoin.get_value
  by_cases hsup : shares.length ≤ c.public_key_set.threshold
  · have : ¬ c.public_key_set.threshold <
        (shares.filter (fun ps => c.verify_share round_hash ps.1 ps.2)).length := by
      omega
    simp [hsup, this]
  · simp only [if_neg hsup]
    unfold PublicKeySet.combine_signatures
    rw [hcount]
    by_cases hth : (shares.filter
        (fun ps => c.verify_share round_hash ps.1 ps.2)).length ≤
        c.public_key_set.threshold
    · have : ¬ c.public_key_set.threshold <
          (shares.filter (fun ps => c.verify_share round_hash ps.1 ps.2)).length := by
        omega
      simp [hth, this]
    · have : c.public_key_set.threshold <
          (shares.filter (fun ps => c.verify_share round_hash ps.1 ps.2)).length := by
        omega
      simp [hth, this]

/-- Witness for C3 at a concrete coin (threshold 1, three ids, shares from
peers 0 and 2 verifying, a share from peer 1 failing verification): two
verified shares exceed the threshold and the parity is returned; the failing
share does not count. -/
theorem get_value_witness :
    CommonCoin.get_value
      ⟨[0, 1, 2], ⟨1, fun idx share _ => decide (share = idx + 10), fun _ => true⟩⟩
      0 [(0, 10), (1, 99), (2, 12)] =
      (if (1 : Nat) <
          (([(0, 10), (1, 99), (2, 12)] : List (PeerId × Share)).filter
            (fun ps => CommonCoin.verify_share
              ⟨[0, 1, 2], ⟨1, fun idx share _ => decide (share = idx + 10), fun _ => true⟩⟩
              0 ps.1 ps.2)).length
       then some true else none) := by
  apply get_value_characterisation
  · decide
  · decide

end Coin

/-! ## Event cache invariants (`src/gossip/event.rs`) -/

namespace EventCache

/-- `PeerIndexMap<usize>` (the `last_ancestors` map), as an association list
with unique keys. -/
abbrev LAMap := List (Nat × Nat)

def LAMap.getVal : LAMap → Nat → Option Nat
  | [], _ => none
  | (k, v) :: rest, key => if k = key then some v else LAMap.getVal rest key

/-- Update the value stored under an existing key. -/
def LAMap.setVal : LAMap → Nat → Nat → LAMap
  | [], _, _ => []
  | (k, v) :: rest, key, val =>
    if k = key then (k, val) :: rest else (k, v) :: LAMap.setVal rest key val

/-- `BTreeMap::insert`: overwrite or append. -/
def LAMap.insertVal (m : LAMap) (key val : Nat) : LAMap :=
  match LAMap.getVal m key with
  | some _ => LAMap.setVal m key val
  | none => m ++ [(key, val)]

/-- `Cause<VoteKey, EventIndex>`: parents are topological indices into the
graph; only the parent structure matters here, so votes/shares are elided. -/
inductive CauseE where
  | initial
  | request (self_parent other_parent : Nat)
  | response (self_parent other_parent : Nat)
  | observation (self_parent : Nat)
  | coinShares (self_parent : Nat)
deriving DecidableEq

/-- `Content::self_parent`. -/
def CauseE.self_parent : CauseE → Option Nat
  | .initial => none
  | .request sp _ => some sp
  | .response sp _ => some sp
  | .observation sp => some sp
  | .coinShares sp => some sp

/-- `Content::other_parent`. -/
def CauseE.other_parent : CauseE → Option Nat
  | .request _ op => some op
  | .response _ op => some op
  | _ => none

/-- An event with its `Cache` fields (`hash` and `forking_peers` are not
involved in C9). -/
structure EventE where
  creator : Nat
  cause : CauseE
  index_by_creator : Nat
  last_ancestors : LAMap
deriving DecidableEq

/-- `index_by_creator_and_last_ancestors` (`src/gossip/event.rs`): the
self-parent fixes `index_by_creator` and seeds the map, the other-parent's
entries are merged with `max` over the peer list, and finally the creator's
own entry is set to `index_by_creator`. -/
def index_by_creator_and_last_ancestors (creator : Nat)
    (self_parent other_parent : Option EventE) (peers : List Nat) :
    Nat × LAMap :=
  let base : Nat × LAMap :=
    match self_parent with
    | some sp => (sp.index_by_creator + 1, sp.last_ancestors)
    | none => (0, [])
  let merged : LAMap :=
    match other_parent with
    | some op =>
      peers.foldl (fun la peer_index =>
        match LAMap.getVal op.last_ancestors peer_index with
        | some other_index =>
          match LAMap.getVal la peer_index with
          | some existing =>
            LAMap.setVal la peer_index (max existing other_index)
          | none => la ++ [(peer_index, other_index)]
        | none => la) base.2
    | none => base.2
  (base.1, LAMap.insertVal merged creator base.1)

/-- Graphs reachable through `add_event`: events are appended one at a time;
a non-initial event resolves its self-parent inside the current graph
(`Event::unpack` fails with `UnknownSelfParent` otherwise, and locally created
events use our own last event), the resolved self-parent has the event's
creator (otherwise `detect_self_parent_by_different_creator` refuses the event
with `InvalidEvent`), and the `index_by_creator`/`last_ancestors` cache fields
are the ones computed by `Cache::new`. -/
inductive Reachable : List EventE → Prop
  | nil : Reachable []
  | add (g : List EventE) (e : EventE) (peers : List Nat)
      (hg : Reachable g)
      (hresolve : ∀ i, e.cause.self_parent = some i → ∃ sp, g.get? i = some sp)
      (hcreator : ∀ i sp, e.cause.self_parent = some i → g.get? i = some sp →
        sp.creator = e.creator)
      (hcache : (e.index_by_creator, e.last_ancestors) =
        index_by_creator_and_last_ancestors e.creator
          (e.cause.self_parent.bind (fun i => g.get? i))
          (e.cause.other_parent.bind (fun i => g.get? i)) peers) :
      Reachable (g ++ [e])

theorem getVal_setVal_self (m : LAMap) (key val : Nat)
    (h : (LAMap.getVal m key).isSome) :
    LAMap.getVal (LAMap.setVal m key val) key = some val := by
  induction m with
  | nil => simp [LAMap.getVal] at h
  | cons hd tl ih =>
    obtain ⟨k, v⟩ := hd
    by_cases hk : k = key
    · simp [LAMap.setVal, LAMap.getVal, hk]
    · simp only [LAMap.getVal, if_neg hk] at h
      simp [LAMap.setVal, LAMap.getVal, hk, ih h]

theorem getVal_append (m₁ m₂ : LAMap) (key : Nat) :
    LAMap.getVal (m₁ ++ m₂) key =
      match LAMap.getVal m₁ key with
      | some v => some v
      | none => LAMap.getVal m₂ key := by
  induction m₁ with
  | nil => simp [LAMap.getVal]
  | cons hd tl ih =>
    obtain ⟨k, v⟩ := hd
    by_cases hk : k = key <;> simp [LAMap.getVal, hk, ih]

theorem getVal_insertVal_self (m : LAMap) (key val : Nat) :
    LAMap.getVal (LAMap.insertVal m key val) key = some val := by
  unfold LAMap.insertVal
  cases h : LAMap.getVal m key with
  | some v => exact getVal_setVal_self m key val (by simp [h])
  | none =>
    rw [getVal_append, h]
    simp [LAMap.getVal]

/-- Indices already present keep their event when the graph grows. -/
theorem get?_append_of_lt {g : List EventE} {e : EventE} {i : Nat} {sp : EventE}
    (h : g.get? i = some sp) : (g ++ [e]).get? i = some sp := by
  have hlt : i < g.length := by
    rcases List.get?_eq_some.mp h with ⟨hl, -⟩
    exact hl
  rw [List.get?_eq_getElem?] at h ⊢
  rw [List.getElem?_append_left hlt]
  exact h

/-- Conversely, a lookup in the extended graph at an index that the original
graph already covers returns the original event. -/
theorem get?_append_inv {g : List EventE} {e : EventE} {i : Nat} {sp : EventE}
    (hcov : ∃ sp₀, g.get? i = some sp₀)
    (h : (g ++ [e]).get? i = some sp) : g.get? i = some sp := by
  obtain ⟨sp₀, h₀⟩ := hcov
  rw [get?_append_of_lt h₀] at h
  rw [h₀, h]

/-- Strengthened induction: every event in a reachable graph resolves its
self-parent inside the graph and satisfies the cache invariants. -/
theorem reachable_strong {g : List EventE} (hg : Reachable g) :
    ∀ e ∈ g,
      (∀ i, e.cause.self_parent = some i → ∃ sp, g.get? i = some sp) ∧
      (∀ i sp, e.cause.self_parent = some i → g.get? i = some sp →
        e.index_by_creator = sp.index_by_creator + 1 ∧ sp.creator = e.creator) ∧
      (e.cause = CauseE.initial → e.index_by_creator = 0) ∧
      LAMap.getVal e.last_ancestors e.creator = some e.index_by_creator := by
  induction hg with
  | nil => intro e he; cases he
  | add g e peers hgr hresolve hcreator hcache ih =>
    intro e' he'
    rcases List.mem_append.mp he' with hold | hnew
    · obtain ⟨hcov, ha, hb, hc⟩ := ih e' hold
      refine ⟨?_, ?_, hb, hc⟩
      · intro i hsp
        obtain ⟨sp₀, h₀⟩ := hcov i hsp
        exact ⟨sp₀, get?_append_of_lt h₀⟩
      · intro i sp hsp hget
        exact ha i sp hsp (get?_append_inv (hcov i hsp) hget)
    · rcases List.mem_singleton.mp hnew with rfl
      have hpair := hcache
      refine ⟨?_, ?_, ?_, ?_⟩
      · intro i hsp
        obtain ⟨sp₀, h₀⟩ := hresolve i hsp
        exact ⟨sp₀, get?_append_of_lt h₀⟩
      · intro i sp hsp hget
        obtain ⟨sp₀, h₀⟩ := hresolve i hsp
        have hsame : sp₀ = sp := by
          have hg' : g.get? i = some sp := get?_append_inv ⟨sp₀, h₀⟩ hget
          rw [hg'] at h₀
          exact (Option.some.inj h₀).symm
        subst hsame
        constructor
        · have hbind : e'.cause.self_parent.bind (fun j => g.get? j) = some sp₀ := by
            rw [hsp]
            simpa using h₀
          rw [hbind] at hpair
          have := congrArg Prod.fst hpair
          simpa [index_by_creator_and_last_ancestors] using this
        · exact hcreator i sp₀ hsp h₀
      · intro hinit
        have hnone : e'.cause.self_parent = none := by
          rw [hinit]; rfl
        rw [hnone] at hpair
        have := congrArg Prod.fst hpair
        simpa [index_by_creator_and_last_ancestors] using this
      · have hsnd := congrArg Prod.snd hpair
        simp only [index_by_creator_and_last_ancestors] at hsnd
        rw [hsnd]
        have hfst := congrArg Prod.fst hpair
        simp only [index_by_creator_and_last_ancestors] at hfst
        rw [hfst]
        exact getVal_insertVal_self _ _ _

/-- C9: in every graph reachable through `add_event`, every event with a
self-parent has `index_by_creator` equal to the self-parent's
`index_by_creator + 1` and the self-parent is by the same creator; `Initial`
events have `index_by_creator = 0`; and every event's `last_ancestors` entry
for its own creator equals its own `index_by_creator`. -/
theorem reachable_event_invariants {g : List EventE} (hg : Reachable g) :
    ∀ e ∈ g,
      (∀ i sp, e.cause.self_parent = some i → g.get? i = some sp →
        e.index_by_creator = sp.index_by_creator + 1 ∧ sp.creator = e.creator) ∧
      (e.cause = CauseE.initial → e.index_by_creator = 0) ∧
      LAMap.getVal e.last_ancestors e.creator = some e.index_by_creator := by
  intro e he
  obtain ⟨-, ha, hb, hc⟩ := reachable_strong hg e he
  exact ⟨ha, hb, hc⟩

/-- Witness for C9 on a concrete two-event graph (an initial event followed by
an observation event by the same creator). -/
theorem reachable_event_invariants_witness :
    (∀ i sp,
      (EventE.mk 0 (CauseE.observation 0) 1 [(0, 1)]).cause.self_parent = some i →
      ([EventE.mk 0 CauseE.initial 0 [(0, 0)],
        EventE.mk 0 (CauseE.observation 0) 1 [(0, 1)]] : List EventE).get? i = some sp →
      (EventE.mk 0 (CauseE.observation 0) 1 [(0, 1)]).index_by_creator =
        sp.index_by_creator + 1 ∧
      sp.creator = (EventE.mk 0 (CauseE.observation 0) 1 [(0, 1)]).creator) ∧
    ((EventE.mk 0 (CauseE.observation 0) 1 [(0, 1)]).cause = CauseE.initial →
      (EventE.mk 0 (CauseE.observation 0) 1 [(0, 1)]).index_by_creator = 0) ∧
    LAMap.getVal (EventE.mk 0 (CauseE.observation 0) 1 [(0, 1)]).last_ancestors
      (EventE.mk 0 (CauseE.observation 0) 1 [(0, 1)]).creator =
      some (EventE.mk 0 (CauseE.observation 0) 1 [(0, 1)]).index_by_creator := by
  have h0 : Reachable [EventE.mk 0 CauseE.initial 0 [(0, 0)]] := by
    have := Reachable.add [] (EventE.mk 0 CauseE.initial 0 [(0, 0)]) [0]
      Reachable.nil
      (by intro i h; cases h)
      (by intro i sp h; cases h)
      (by decide)
    simpa using this
  have h1 : Reachable
      [EventE.mk 0 CauseE.initial 0 [(0, 0)],
       EventE.mk 0 (CauseE.observation 0) 1 [(0, 1)]] := by
    have := Reachable.add [EventE.mk 0 CauseE.initial 0 [(0, 0)]]
      (EventE.mk 0 (CauseE.observation 0) 1 [(0, 1)]) [0]
      h0
      (by
        intro i h
        cases h
        exact ⟨EventE.mk 0 CauseE.initial 0 [(0, 0)], rfl⟩)
      (by
        intro i sp h hget
        cases h
        cases hget
        rfl)
      (by decide)
    simpa using this
  exact reachable_event_invariants h1 _ (by simp)

end EventCache

/-! ## Malice refused before insertion (`src/parsec.rs`,
`detect_malice_before_process` / `add_event`) -/

namespace MaliceCheck

open ObsStore (Obs)

/-- The malice kinds raised on the fail-fast path, carrying the offending
event's identity (the source packs the whole event for the parent-mismatch
accusations; its content hash identifies it). -/
inductive MaliceK where
  | incorrectGenesis (hash : Nat)
  | otherParentBySameCreator (hash : Nat)
  | selfParentByDifferentCreator (hash : Nat)
deriving DecidableEq

/-- An event as the three fail-fast detectors see it: content hash, creator,
parent indices (via the cause), and the resolved vote payload
(`event_payload`). -/
structure EventM where
  hash : Nat
  creator : Nat
  cause : EventCache.CauseE
  payload : Option Obs
deriving DecidableEq

/-- The state fragment the fail-fast path touches: the graph, the current
voters (the `genesis_group()` fallback), and our appended accusation events.
`create_accusation_event` appends an `Observation::Accusation` event authored
by us; it is modelled by appending the `(offender, malice)` pair it carries. -/
structure ParsecSt where
  graph : List EventM
  voters : List Nat
  ourAccusations : List (Nat × MaliceK)
deriving DecidableEq

def graphGet (st : ParsecSt) (i : Nat) : Option EventM :=
  st.graph.get? i

/-- `Parsec::genesis_group`: the first `Genesis` payload in the graph, else
the current voters. -/
def genesis_group (st : ParsecSt) : List Nat :=
  match st.graph.filterMap (fun e =>
    match e.payload with
    | some (Obs.genesis g) => some g
    | _ => none) with
  | g :: _ => g
  | [] => st.voters

/-- `detect_incorrect_genesis`: a `Genesis` payload whose group differs from
our expected genesis group (as a set) is refused. -/
def detect_incorrect_genesis (st : ParsecSt) (event : EventM) : Option MaliceK :=
  match event.payload with
  | some (Obs.genesis group) =>
    if group.toFinset ≠ (genesis_group st).toFinset
    then some (MaliceK.incorrectGenesis event.hash) else none
  | _ => none

/-- `detect_other_parent_by_same_creator`: accuse iff the other-parent resolves
in the graph and has the same creator as the event. -/
def detect_other_parent_by_same_creator (st : ParsecSt) (event : EventM) :
    Option MaliceK :=
  match event.cause.other_parent.bind (graphGet st) with
  | some other_parent =>
    if other_parent.creator = event.creator
    then some (MaliceK.otherParentBySameCreator event.hash) else none
  | none => none

/-- `detect_self_parent_by_different_creator`: accuse iff the self-parent
resolves in the graph and has a different creator. -/
def detect_self_parent_by_different_creator (st : ParsecSt) (event : EventM) :
    Option MaliceK :=
  match event.cause.self_parent.bind (graphGet st) with
  | some self_parent =>
    if self_parent.creator ≠ event.creator
    then some (MaliceK.selfParentByDifferentCreator event.hash) else none
  | none => none

/-- The fallible prefix of `detect_malice_before_process`: the three checks
run in source order and the first hit aborts with its accusation (the
remaining detectors only queue pending accusations and never error; they are
outside this fragment). -/
def detect_malice_before_process (st : ParsecSt) (event : EventM) :
    Option MaliceK :=
  match detect_incorrect_genesis st event with
  | some malice => some malice
  | none =>
    match detect_other_parent_by_same_creator st event with
    | some malice => some malice
    | none => detect_self_parent_by_different_creator st event

inductive AddEventResult where
  | ok (st : ParsecSt)
  | invalidEvent (st : ParsecSt)
deriving DecidableEq

/-- The `add_event` entry: for an event by another peer the three fail-fast
checks run first — on a hit, `create_accusation_event` appends our accusation
event and `Err(InvalidEvent)` is returned with the offending event never
inserted; otherwise the event is inserted (the successful path's further
processing — meta-elections, consensus — does not touch the fragment modelled
here). -/
def add_event (st : ParsecSt) (event : EventM) : AddEventResult :=
  if event.creator ≠ 0 then
    match detect_malice_before_process st event with
    | some malice =>
      AddEventResult.invalidEvent
        { st with ourAccusations := st.ourAccusations ++ [(event.creator, malice)] }
    | none => AddEventResult.ok { st with graph := st.graph ++ [event] }
  else AddEventResult.ok { st with graph := st.graph ++ [event] }

/-- C6: an event from another peer that carries a `Genesis` payload differing
from our expected genesis group, or whose resolved other-parent has the same
creator, or whose resolved self-parent has a different creator, is refused
with `InvalidEvent`: the offending event is not inserted (the graph, the voter
list — indeed everything except our appended accusation — is unchanged), and
the respective accusation event (`IncorrectGenesis`,
`OtherParentBySameCreator`, `SelfParentByDifferentCreator` — the first
triggered check in source order) is appended before the error returns. -/
theorem add_event_refuses_and_accuses (st : ParsecSt) (event : EventM)
    (hc : event.creator ≠ 0) :
    (∀ group, event.payload = some (Obs.genesis group) →
      group.toFinset ≠ (genesis_group st).toFinset →
      add_event st event = AddEventResult.invalidEvent
        ⟨st.graph, st.voters,
          st.ourAccusations ++ [(event.creator, MaliceK.incorrectGenesis event.hash)]⟩) ∧
    (detect_incorrect_genesis st event = none →
      ∀ other_parent, event.cause.other_parent.bind (graphGet st) = some other_parent →
      other_parent.creator = event.creator →
      add_event st event = AddEventResult.invalidEvent
        ⟨st.graph, st.voters,
          st.ourAccusations ++
            [(event.creator, MaliceK.otherParentBySameCreator event.hash)]⟩) ∧
    (detect_incorrect_genesis st event = none →
      detect_other_parent_by_same_creator st event = none →
      ∀ self_parent, event.cause.self_parent.bind (graphGet st) = some self_parent →
      self_parent.creator ≠ event.creator →
      add_event st event = AddEventResult.invalidEvent
        ⟨st.graph, st.voters,
          st.ourAccusations ++
            [(event.creator, MaliceK.selfParentByDifferentCreator event.hash)]⟩) := by
  refine ⟨?_, ?_, ?_⟩
  · intro group hpay hne
    have hdet : detect_incorrect_genesis st event =
        some (MaliceK.incorrectGenesis event.hash) := by
      simp [detect_incorrect_genesis, hpay, hne]
    simp [add_event, hc, detect_malice_before_process, hdet]
  · intro hgen other_parent hop hcreator
    have hdet : detect_other_parent_by_same_creator st event =
        some (MaliceK.otherParentBySameCreator event.hash) := by
      simp [detect_other_parent_by_same_creator, hop, hcreator]
    simp [add_event, hc, detect_malice_before_process, hgen, hdet]
  · intro hgen hother self_parent hsp hcreator
    have hdet : detect_self_parent_by_different_creator st event =
        some (MaliceK.selfParentByDifferentCreator event.hash) := by
      simp [detect_self_parent_by_different_creator, hsp, hcreator]
    simp [add_event, hc, detect_malice_before_process, hgen, hother, hdet]

/-- Witness for C6 at concrete states: an incorrect-genesis event, an event
whose other-parent it itself created, and an event grafted onto a different
peer's event, each refused with the respective accusation appended. -/
theorem add_event_refuses_witness :
    add_event ⟨[⟨1, 0, EventCache.CauseE.initial, some (Obs.genesis [0, 1])⟩], [0, 1], []⟩
        ⟨9, 1, EventCache.CauseE.observation 0, some (Obs.genesis [0, 2])⟩ =
      AddEventResult.invalidEvent
        ⟨[⟨1, 0, EventCache.CauseE.initial, some (Obs.genesis [0, 1])⟩], [0, 1],
          [(1, MaliceK.incorrectGenesis 9)]⟩ ∧
    add_event ⟨[⟨1, 1, EventCache.CauseE.initial, none⟩], [0, 1], []⟩
        ⟨9, 1, EventCache.CauseE.request 0 0, none⟩ =
      AddEventResult.invalidEvent
        ⟨[⟨1, 1, EventCache.CauseE.initial, none⟩], [0, 1],
          [(1, MaliceK.otherParentBySameCreator 9)]⟩ ∧
    add_event ⟨[⟨1, 2, EventCache.CauseE.initial, none⟩], [0, 1], []⟩
        ⟨9, 1, EventCache.CauseE.observation 0, none⟩ =
      AddEventResult.invalidEvent
        ⟨[⟨1, 2, EventCache.CauseE.initial, none⟩], [0, 1],
          [(1, MaliceK.selfParentByDifferentCreator 9)]⟩ := by
  refine ⟨?_, ?_, ?_⟩
  · exact (add_event_refuses_and_accuses
      ⟨[⟨1, 0, EventCache.CauseE.initial, some (Obs.genesis [0, 1])⟩], [0, 1], []⟩
      ⟨9, 1, EventCache.CauseE.observation 0, some (Obs.genesis [0, 2])⟩
      (by decide)).1 [0, 2] rfl (by decide)
  · exact (add_event_refuses_and_accuses
      ⟨[⟨1, 1, EventCache.CauseE.initial, none⟩], [0, 1], []⟩
      ⟨9, 1, EventCache.CauseE.request 0 0, none⟩
      (by decide)).2.1 (by decide) ⟨1, 1, EventCache.CauseE.initial, none⟩
      (by decide) (by decide)
  · exact (add_event_refuses_and_accuses
      ⟨[⟨1, 2, EventCache.CauseE.initial, none⟩], [0, 1], []⟩
      ⟨9, 1, EventCache.CauseE.observation 0, none⟩
      (by decide)).2.2 (by decide) (by decide) ⟨1, 2, EventCache.CauseE.initial, none⟩
      (by decide) (by decide)

end MaliceCheck

/-! ## Accomplice detection (`src/parsec.rs`, `detect_accomplice` /
`detect_accomplice_for_our_accusations`) -/

namespace Accomplice

/-- `Malice`, with event identities as `Nat` content hashes (faults and
packed-event payloads are reduced to the hash used by
`malicious_event_is_ancestor_of_this_event`). -/
inductive MaliceA where
  | unexpectedGenesis (hash : Nat)
  | missingGenesis (hash : Nat)
  | incorrectGenesis (hash : Nat)
  | invalidAccusation (hash : Nat)
  | invalidGossipCreator (hash : Nat)
  | accomplice (hash : Nat) (inner : MaliceA)
  | invalidDkgPart (hash : Nat)
  | invalidDkgAck (hash : Nat)
  | invalidCoinShare (hash : Nat)
  | duplicateVote (hash0 hash1 : Nat)
  | fork (hash : Nat)
  | otherParentBySameCreator (packed_hash : Nat)
  | selfParentByDifferentCreator (packed_hash : Nat)
  | unprovable
deriving DecidableEq

/-- Payload as the accomplice detector sees it. -/
inductive ObsA where
  | accusation (offender : Nat) (malice : MaliceA)
  | opaquePayload (v : Nat)
deriving DecidableEq

/-- An event of the gossip graph, parents by topological index. -/
structure EventA where
  hash : Nat
  creator : Nat
  selfParent : Option Nat
  otherParent : Option Nat
  is_request : Bool
  payload : Option ObsA
  forkingPeers : List Nat
deriving DecidableEq

/-- The state fragment the detector reads: the graph, the known peers
(`peer_list.get_index` succeeds exactly on these), the pending accusations,
and the per-creator accomplice checkpoint
(`peer_list.accomplice_event_checkpoint_by`). -/
structure StA where
  graph : List EventA
  knownPeers : List Nat
  pending_accusations : List (Nat × MaliceA)
  accomplice_event_checkpoint : Nat → Option Nat

def getEv (g : List EventA) (i : Nat) : Option EventA :=
  g.get? i

def get_index (g : List EventA) (hash : Nat) : Option Nat :=
  g.findIdx? (fun e => e.hash == hash)

/-- Ancestor walk (`Graph::is_descendant` resolves to the ancestor-iterator
walk; on graphs whose parents have strictly smaller topological index a fuel
of `g.length + 1` covers every path). -/
def reachAux (g : List EventA) : Nat → Nat → Nat → Bool
  | 0, _, _ => false
  | fuel + 1, x, y =>
    if x = y then true
    else
      match getEv g x with
      | none => false
      | some e =>
        (match e.selfParent with
          | some p => reachAux g fuel p y
          | none => false) ||
        (match e.otherParent with
          | some p => reachAux g fuel p y
          | none => false)

/-- `Graph::is_descendant x y`: there is a directed path from `y` up to `x`. -/
def is_descendant (g : List EventA) (x y : Nat) : Bool :=
  reachAux g (g.length + 1) x y

/-- `event.is_forking_peer(peer)`. -/
def is_forking_peer (e : EventA) (peer : Nat) : Bool :=
  e.forkingPeers.contains peer

/-- `Parsec::malicious_event_is_ancestor_of_this_event`. -/
def malicious_event_is_ancestor_of_this_event (g : List EventA)
    (malice : MaliceA) (event : Nat) : Bool :=
  match getEv g event with
  | none => false
  | some ev =>
    match malice with
    | .unexpectedGenesis h | .missingGenesis h | .incorrectGenesis h
    | .invalidAccusation h | .invalidGossipCreator h | .accomplice h _
    | .invalidDkgPart h | .invalidDkgAck h | .invalidCoinShare h =>
      (match get_index g h with
        | some mi => is_descendant g event mi
        | none => false)
    | .duplicateVote h0 h1 =>
      (match get_index g h0 with
        | some mi => is_descendant g event mi
        | none => false) &&
      (match get_index g h1 with
        | some mi => is_descendant g event mi
        | none => false)
    | .fork h =>
      (match get_index g h with
        | some mi =>
          is_descendant g event mi &&
            (match getEv g mi with
              | some mev => is_forking_peer ev mev.creator
              | none => false)
        | none => false)
    | .otherParentBySameCreator ph | .selfParentByDifferentCreator ph =>
      (match get_index g ph with
        | some mi => is_descendant g event mi
        | none => false)
    | .unprovable => false

/-- `Parsec::accusations_by_peer_since`: accusation payloads of the given
peer's events from the given topological index on, with offenders resolved
against the peer list (unknown offenders dropped). -/
def accusations_by_peer_since (st : StA) (peer_index : Nat)
    (oldest_event : Option Nat) : List (Nat × MaliceA) :=
  ((st.graph.drop (oldest_event.getD 0)).filter
      (fun e => e.creator == peer_index)).filterMap
    (fun e =>
      match e.payload with
      | some (ObsA.accusation offender malice) =>
        if offender ∈ st.knownPeers then some (offender, malice) else none
      | _ => none)

/-- `Parsec::detect_accomplice_for_our_accusations`: our accusations (pending
plus those in our events since the starting index) against peers other than
the event's creator, whose malicious event the event sees, minus the
accusations the creator has raised since the starting index. -/
def detect_accomplice_for_our_accusations (st : StA) (event : Nat)
    (starting_event : Option Nat) : Option (List (Nat × MaliceA)) :=
  match getEv st.graph event with
  | none => none
  | some ev =>
    some ((((st.pending_accusations ++
        accusations_by_peer_since st 0 starting_event).filter
          (fun om => om.1 ≠ ev.creator)).filter
          (fun om => malicious_event_is_ancestor_of_this_event st.graph om.2 event)).filter
          (fun om =>
            !(accusations_by_peer_since st ev.creator starting_event).any
              (fun om' => om' == om)))

/-- `Parsec::detect_accomplice` — returns the queued accusations (each `accuse`
call); the checkpoint update that follows in the source is an optimisation of
future calls and is not part of this claim.  Request events and accusation
events are skipped ("the peer might not have raised the accusation yet"). -/
def detect_accomplice (st : StA) (event : Nat) : Option (List (Nat × MaliceA)) :=
  match getEv st.graph event with
  | none => none
  | some ev =>
    if ev.is_request ||
        (match ev.payload with
          | some (ObsA.accusation _ _) => true
          | _ => false) then
      some []
    else
      (detect_accomplice_for_our_accusations st event
          (st.accomplice_event_checkpoint ev.creator)).map
        (fun l => l.map (fun om => (ev.creator, MaliceA.accomplice ev.hash om.2)))

/-- The accomplice check as the claim words it (refinement reference): for
EVERY newly ingested event E by creator C — no Request/accusation carve-out —
our raised accusations (pending or in our events since
`accomplice_checkpoint_by(C)`) concerning malicious events E transitively
sees, minus the accusations C has raised in that range (no exclusion of
accusations whose offender is C itself), one `Accomplice(E.hash, malice)`
each. -/
def detect_accomplice_per_claim (st : StA) (event : Nat) :
    Option (List (Nat × MaliceA)) :=
  match getEv st.graph event with
  | none => none
  | some ev =>
    some ((((st.pending_accusations ++
        accusations_by_peer_since st 0
          (st.accomplice_event_checkpoint ev.creator)).filter
          (fun om =>
            malicious_event_is_ancestor_of_this_event st.graph om.2 event)).filter
          (fun om =>
            !(accusations_by_peer_since st ev.creator
                (st.accomplice_event_checkpoint ev.creator)).any
              (fun om' => om' == om))).map
        (fun om => (ev.creator, MaliceA.accomplice ev.hash om.2)))

/-- C5, counterexample: a Request event E by peer 1 sees a malicious event
(hash 100, by peer 2) for which we hold a pending accusation that peer 1 has
not raised.  The claim's procedure queues `Accomplice(E.hash, …)` against
peer 1, but the source skips Request events entirely and queues nothing. -/
theorem detect_accomplice_request_counterexample :
    detect_accomplice
      ⟨[⟨100, 2, none, none, false, none, []⟩,
        ⟨200, 1, some 0, none, true, none, []⟩],
        [0, 1, 2], [(2, MaliceA.invalidAccusation 100)], fun _ => none⟩ 1 =
      some [] ∧
    detect_accomplice_per_claim
      ⟨[⟨100, 2, none, none, false, none, []⟩,
        ⟨200, 1, some 0, none, true, none, []⟩],
        [0, 1, 2], [(2, MaliceA.invalidAccusation 100)], fun _ => none⟩ 1 =
      some [(1, MaliceA.accomplice 200 (MaliceA.invalidAccusation 100))] ∧
    some [] ≠
      some [(1, MaliceA.accomplice 200 (MaliceA.invalidAccusation 100))] := by
  refine ⟨by decide, ?_, by decide⟩
  decide

/-- C5, amended: for a newly ingested event E by creator C that is neither a
Request nor itself an accusation, an accusation `Accomplice(E.hash, malice)`
is queued against C exactly for the members of our accusations (pending, plus
those in our events since `accomplice_checkpoint_by(C)`) whose offender is not
C, whose malicious event E transitively sees, and which C has not raised since
the checkpoint; and for Request or accusation events nothing is queued. -/
theorem detect_accomplice_characterisation (st : StA) (eidx : Nat) (ev : EventA)
    (hev : getEv st.graph eidx = some ev) :
    ((ev.is_request = true ∨ (∃ off m, ev.payload = some (ObsA.accusation off m))) →
      detect_accomplice st eidx = some []) ∧
    (ev.is_request = false →
      (∀ off m, ev.payload ≠ some (ObsA.accusation off m)) →
      ∀ l, detect_accomplice st eidx = some l →
        ∀ acc, acc ∈ l ↔ ∃ om,
          om ∈ st.pending_accusations ++
            accusations_by_peer_since st 0 (st.accomplice_event_checkpoint ev.creator) ∧
          om.1 ≠ ev.creator ∧
          malicious_event_is_ancestor_of_this_event st.graph om.2 eidx = true ∧
          om ∉ accusations_by_peer_since st ev.creator
            (st.accomplice_event_checkpoint ev.creator) ∧
          acc = (ev.creator, MaliceA.accomplice ev.hash om.2)) := by
  constructor
  · rintro (hreq | ⟨off, m, hpay⟩)
    · simp [detect_accomplice, hev, hreq]
    · simp [detect_accomplice, hev, hpay]
  · intro hreq hpay l hl acc
    have hmatch : (match ev.payload with
        | some (ObsA.accusation _ _) => true
        | _ => false) = false := by
      cases hp : ev.payload with
      | none => rfl
      | some o =>
        cases o with
        | accusation off m => exact absurd hp (hpay off m)
        | opaquePayload v => rfl
    simp only [detect_accomplice, hev, hreq, hmatch, Bool.false_or, if_false,
      Bool.or_self, detect_accomplice_for_our_accusations, Option.map_some,
      Option.map_some', Option.some.injEq, Bool.false_eq_true, ite_false] at hl
    subst hl
    simp only [List.mem_map, List.mem_filter, List.mem_append]
    constructor
    · rintro ⟨om, ⟨⟨⟨hmem, hoff⟩, hanc⟩, hnot⟩, hacc⟩
      refine ⟨om, by simpa using hmem, by simpa using hoff, hanc, ?_, hacc.symm⟩
      intro hcontra
      have : (accusations_by_peer_since st ev.creator
          (st.accomplice_event_checkpoint ev.creator)).any
          (fun om' => om' == om) = true := by
        rw [List.any_eq_true]
        exact ⟨om, hcontra, by simp⟩
      rw [this] at hnot
      cases hnot
    · rintro ⟨om, hmem, hoff, hanc, hnot, hacc⟩
      refine ⟨om, ⟨⟨⟨by simpa using hmem, by simpa using hoff⟩, hanc⟩, ?_⟩, hacc.symm⟩
      rw [Bool.not_eq_true', List.any_eq_false]
      intro om' hom'
      intro hcontra
      rw [beq_iff_eq] at hcontra
      exact hnot (hcontra ▸ hom')

/-- Witness for the amended C5 at a concrete state: a non-Request event E
(hash 200, by peer 1) that sees malicious event hash 100; our pending
accusation against peer 2 is queued as `Accomplice(200, _)`, and membership in
the queued list is as characterised. -/
theorem detect_accomplice_witness :
    (detect_accomplice
      ⟨[⟨100, 2, none, none, false, none, []⟩,
        ⟨200, 1, some 0, none, false, none, []⟩],
        [0, 1, 2], [(2, MaliceA.invalidAccusation 100)], fun _ => none⟩ 1 =
      some [(1, MaliceA.accomplice 200 (MaliceA.invalidAccusation 100))]) ∧
    ((1, MaliceA.accomplice 200 (MaliceA.invalidAccusation 100)) ∈
        [(1, MaliceA.accomplice 200 (MaliceA.invalidAccusation 100))] ↔
      ∃ om,
        om ∈ ([(2, MaliceA.invalidAccusation 100)] : List (Nat × MaliceA)) ++
          accusations_by_peer_since
            ⟨[⟨100, 2, none, none, false, none, []⟩,
              ⟨200, 1, some 0, none, false, none, []⟩],
              [0, 1, 2], [(2, MaliceA.invalidAccusation 100)], fun _ => none⟩ 0 none ∧
        om.1 ≠ 1 ∧
        malicious_event_is_ancestor_of_this_event
          [⟨100, 2, none, none, false, none, []⟩,
            ⟨200, 1, some 0, none, false, none, []⟩] om.2 1 = true ∧
        om ∉ accusations_by_peer_since
          ⟨[⟨100, 2, none, none, false, none, []⟩,
            ⟨200, 1, some 0, none, false, none, []⟩],
            [0, 1, 2], [(2, MaliceA.invalidAccusation 100)], fun _ => none⟩ 1 none ∧
        (1, MaliceA.accomplice 200 (MaliceA.invalidAccusation 100)) =
          (1, MaliceA.accomplice 200 om.2)) := by
  refine ⟨by decide, ?_⟩
  exact (detect_accomplice_characterisation
    ⟨[⟨100, 2, none, none, false, none, []⟩,
      ⟨200, 1, some 0, none, false, none, []⟩],
      [0, 1, 2], [(2, MaliceA.invalidAccusation 100)], fun _ => none⟩ 1
    ⟨200, 1, some 0, none, false, none, []⟩ rfl).2 rfl
    (by intro off m h; cases h)
    [(1, MaliceA.accomplice 200 (MaliceA.invalidAccusation 100))] (by decide)
    (1, MaliceA.accomplice 200 (MaliceA.invalidAccusation 100))

end Accomplice

/-! ## DKG-gated membership changes (`src/parsec.rs`,
`handle_dkg_message_ack` / `finalise_add_peer` / `finalise_remove_peer` /
`poll`) -/

namespace Dkg

open PeerListM (PeerState)

/-- A peer as `finalise_add_peer` sees it: public id and state flags. -/
structure PeerD where
  id : Nat
  state : PeerState
deriving DecidableEq

/-- The peer list: our peer (index `0`) plus the others. -/
structure PeerListD where
  ourPeer : PeerD
  peers : List PeerD
deriving DecidableEq

def PeerListD.get (pl : PeerListD) (index : Nat) : Option PeerD :=
  if index = 0 then some pl.ourPeer else pl.peers.get? (index - 1)

def PeerListD.set (pl : PeerListD) (index : Nat) (p : PeerD) : PeerListD :=
  if index = 0 then { pl with ourPeer := p }
  else { pl with peers := pl.peers.set (index - 1) p }

/-- `PeerList::get_index`: ourselves first, then the index map. -/
def PeerListD.get_index (pl : PeerListD) (peer_id : Nat) : Option Nat :=
  if peer_id = pl.ourPeer.id then some 0
  else (pl.peers.findIdx? (fun p => p.id == peer_id)).map (fun i => i + 1)

/-- `PeerList::iter`: `(index, peer)` pairs, ourselves first. -/
def PeerListD.iter (pl : PeerListD) : List (Nat × PeerD) :=
  (0, pl.ourPeer) :: pl.peers.enum.map (fun ip => (ip.1 + 1, ip.2))

/-- `PeerList::change_peer_state`: `state |= new` on the addressed peer. -/
def PeerListD.change_peer_state (pl : PeerListD) (index : Nat)
    (state : PeerState) : PeerListD :=
  match pl.get index with
  | some peer => pl.set index ⟨peer.id, peer.state.union state⟩
  | none => pl

/-- `PeerList::add_peer`: no-op (with a logged error) when the id is ours or
already present, otherwise push a new peer. -/
def PeerListD.add_peer (pl : PeerListD) (peer_id : Nat) (state : PeerState) :
    PeerListD :=
  if peer_id = pl.ourPeer.id then pl
  else
    match pl.peers.findIdx? (fun p => p.id == peer_id) with
    | some _ => pl
    | none => { pl with peers := pl.peers ++ [⟨peer_id, state⟩] }

/-- `PeerList::remove_peer`: set the addressed peer's state to inactive. -/
def PeerListD.remove_peer (pl : PeerListD) (index : Nat) : PeerListD :=
  match pl.get index with
  | some peer => pl.set index ⟨peer.id, PeerState.inactive⟩
  | none => pl

/-- The state `finalise_add_peer` grants the added peer (the two `let`s of
the source): VOTE|SEND, plus RECV when every other voting peer can already
receive, i.e. has already reached consensus on adding us. -/
def addPeerTargetState (pl : PeerListD) (peer_id : Nat) : PeerState :=
  if (pl.iter.filter (fun ip =>
      ip.2.state.can_vote && !(ip.1 == 0) && !(ip.2.id == peer_id))).all
    (fun ip => ip.2.state.can_recv)
  then ⟨true, true, true⟩ else ⟨true, true, false⟩

/-- `Parsec::finalise_add_peer`. -/
def finalise_add_peer (pl : PeerListD) (peer_id : Nat) : PeerListD :=
  match pl.get_index peer_id with
  | some peer_index => pl.change_peer_state peer_index (addPeerTargetState pl peer_id)
  | none => pl.add_peer peer_id (addPeerTargetState pl peer_id)

/-- `Parsec::finalise_remove_peer`. -/
def finalise_remove_peer (pl : PeerListD) (peer_id : Nat) : PeerListD :=
  match pl.get_index peer_id with
  | some peer_index => pl.remove_peer peer_index
  | none => pl

/-- Block payloads (`Observation`), as far as membership is concerned. -/
inductive ObsD where
  | genesis
  | add (peer_id : Nat)
  | remove (peer_id : Nat)
  | accusation (offender : Nat)
  | opaquePayload (v : Nat)
  | dkgMessage (m : Nat)
deriving DecidableEq

/-- Acting upon one pending block (the `match block.payload()` arm of
`handle_dkg_message_ack`). -/
def applyBlock (pl : PeerListD) : ObsD → PeerListD
  | ObsD.add peer_id => finalise_add_peer pl peer_id
  | ObsD.remove peer_id => finalise_remove_peer pl peer_id
  | ObsD.accusation offender => finalise_remove_peer pl offender
  | _ => pl

/-- Modelled from the spec: a `KeyGen` session is an external DKG primitive
exposing `handle_ack -> AckOutcome` and `is_ready`; here it is an oracle
pre-charged with the outcome of the one `handle_ack` call this claim concerns
and with the resulting `is_ready` answer (`generate`/`public_keys` feed the
common coin, which is outside the modelled state). -/
structure KeyGenD where
  ackOutcomeValid : Bool
  readyAfter : Bool
deriving DecidableEq

def kgLookup : List (Nat × KeyGenD) → Nat → Option KeyGenD
  | [], _ => none
  | (k, v) :: rest, key => if k = key then some v else kgLookup rest key

/-- The `Parsec` fields `handle_dkg_message_ack` and `poll` touch.
`consensused_blocks` holds the payloads of the not-yet-polled blocks; the
block at queue position `i` is block number
`first_consensused_block_number + i`.  An `Invalid` ack outcome pushes one
pending accusation (`InvalidDkgAck`); only the count is tracked here. -/
structure ParsecD where
  peer_list : PeerListD
  first_consensused_block_number : Nat
  next_block_number : Nat
  key_gen : List (Nat × KeyGenD)
  consensused_blocks : List ObsD
  pending_accusations : Nat
deriving DecidableEq

/-- `Parsec::move_next_block_number`: the smallest key-gen block number
(`keys().next()` of the `BTreeMap`), else one past the last consensused
block. -/
def move_next_block_number (st : ParsecD) : ParsecD :=
  { st with next_block_number := (List.min? (st.key_gen.map Prod.fst)).getD (st.consensused_blocks.length + st.first_consensused_block_number) }

/-- `Parsec::handle_dkg_message_ack` for block number `block_number` (`none`
models the `unwrap` panic on a missing session).  On a valid ack that makes
the session ready: apply the pending membership blocks numbered
`next_block_number ..= block_number` in order, drop every key-gen session
keyed `≤ block_number`, and advance `next_block_number`. -/
def handle_dkg_message_ack (st : ParsecD) (block_number : Nat) :
    Option ParsecD :=
  if block_number < st.next_block_number then some st
  else
    match kgLookup st.key_gen block_number with
    | none => none
    | some key_gen =>
      if key_gen.ackOutcomeValid then
        if key_gen.readyAfter then
          some (move_next_block_number
            { st with
              peer_list :=
                ((st.consensused_blocks.drop
                    (st.next_block_number - st.first_consensused_block_number)).take
                  (block_number + 1 - st.next_block_number)).foldl
                  applyBlock st.peer_list,
              key_gen := st.key_gen.filter
                (fun e => block_number + 1 ≤ e.1) })
        else some st
      else some { st with pending_accusations := st.pending_accusations + 1 }

/-- `Parsec::poll`. -/
def poll (st : ParsecD) : Option ObsD × ParsecD :=
  if st.first_consensused_block_number < st.next_block_number then
    (st.consensused_blocks.head?,
      { st with
        first_consensused_block_number := st.first_consensused_block_number + 1,
        consensused_blocks := st.consensused_blocks.tail })
  else (none, st)

/-- `stateOf pl id`: the state flags of the peer with the given id. -/
def stateOf (pl : PeerListD) (peer_id : Nat) : Option PeerState :=
  ((pl.get_index peer_id).bind (fun i => pl.get i)).map (fun p => p.state)

theorem kgLookup_filter_drop (l : List (Nat × KeyGenD)) (bn k : Nat)
    (hk : k ≤ bn) :
    kgLookup (l.filter (fun e => bn + 1 ≤ e.1)) k = none := by
  induction l with
  | nil => rfl
  | cons hd tl ih =>
    obtain ⟨k₀, v₀⟩ := hd
    by_cases hkeep : bn + 1 ≤ k₀
    · have hne : k₀ ≠ k := by omega
      simp only [List.filter_cons]
      rw [if_pos (by simpa using hkeep)]
      simpa [kgLookup, hne] using ih
    · simp only [List.filter_cons]
      rw [if_neg (by simpa using hkeep)]
      exact ih

theorem findIdx?_set_id (l : List PeerD) (j : Nat) (peer : PeerD)
    (s : PeerState) (h : l.get? j = some peer) (peer_id : Nat) :
    (l.set j ⟨peer.id, s⟩).findIdx? (fun p => p.id == peer_id) =
      l.findIdx? (fun p => p.id == peer_id) := by
  induction l generalizing j with
  | nil => simp at h
  | cons a t ih =>
    cases j with
    | zero =>
      have ha : a = peer := by
        simpa using h
      subst ha
      simp [List.set, List.findIdx?_cons]
    | succ j =>
      have ht : t.get? j = some peer := by
        simpa using h
      simp only [List.set, List.findIdx?_cons]
      by_cases hp : a.id == peer_id
      · simp [hp]
      · simp only [hp, Bool.false_eq_true, if_false]
        rw [List.findIdx?_succ, List.findIdx?_succ, ih j ht]

/-- `get_index` is unchanged by a state-only update at a valid index. -/
theorem get_index_set_state (pl : PeerListD) (i : Nat) (peer : PeerD)
    (s : PeerState) (hget : pl.get i = some peer) (peer_id : Nat) :
    (pl.set i ⟨peer.id, s⟩).get_index peer_id = pl.get_index peer_id := by
  cases i with
  | zero =>
    have ha : peer = pl.ourPeer := by
      have := hget
      simp only [PeerListD.get, if_pos rfl] at this
      exact (Option.some.inj this).symm
    subst ha
    simp [PeerListD.set, PeerListD.get_index]
  | succ i =>
    have ht : pl.peers.get? i = some peer := by
      simpa [PeerListD.get] using hget
    have hset : pl.set (i + 1) ⟨peer.id, s⟩ =
        { pl with peers := pl.peers.set i ⟨peer.id, s⟩ } := by
      simp [PeerListD.set]
    rw [hset]
    simp only [PeerListD.get_index]
    rw [findIdx?_set_id pl.peers i peer s ht peer_id]

/-- `get` at the updated index returns the update. -/
theorem get_set_self (pl : PeerListD) (i : Nat) (peer : PeerD) (p : PeerD)
    (hget : pl.get i = some peer) :
    (pl.set i p).get i = some p := by
  cases i with
  | zero => simp [PeerListD.set, PeerListD.get]
  | succ i =>
    have ht : pl.peers.get? i = some peer := by
      simpa [PeerListD.get] using hget
    have hlt : i < pl.peers.length := by
      rcases List.get?_eq_some.mp ht with ⟨hl, -⟩
      exact hl
    simp only [PeerListD.set, PeerListD.get, Nat.succ_ne_zero, if_false,
      Nat.succ_sub_one]
    rw [List.get?_eq_getElem?]
    simp [List.getElem?_set_self hlt]

/-- `get_index` hits are `get`-able and carry the looked-up id. -/
theorem get_index_sound (pl : PeerListD) (peer_id : Nat) (i : Nat)
    (h : pl.get_index peer_id = some i) :
    ∃ peer, pl.get i = some peer ∧ peer.id = peer_id := by
  unfold PeerListD.get_index at h
  by_cases hour : peer_id = pl.ourPeer.id
  · rw [if_pos hour] at h
    cases h
    exact ⟨pl.ourPeer, by simp [PeerListD.get], hour.symm⟩
  · rw [if_neg hour] at h
    cases hidx : pl.peers.findIdx? (fun p => p.id == peer_id) with
    | none => rw [hidx] at h; cases h
    | some j =>
      rw [hidx] at h
      cases h
      obtain ⟨hlt, hp, -⟩ := List.findIdx?_eq_some_iff_getElem.mp hidx
      refine ⟨pl.peers[j], ?_, by simpa using hp⟩
      simp [PeerListD.get, List.get?_eq_getElem?, List.getElem?_eq_getElem hlt]

/-- The target state always carries VOTE. -/
theorem addPeerTargetState_vote (pl : PeerListD) (peer_id : Nat) :
    (addPeerTargetState pl peer_id).vote = true := by
  unfold addPeerTargetState
  by_cases h : (pl.iter.filter (fun ip =>
      ip.2.state.can_vote && !(ip.1 == 0) && !(ip.2.id == peer_id))).all
    (fun ip => ip.2.state.can_recv) <;> simp [h]

/-- `finalise_add_peer` leaves the added peer with the VOTE flag set. -/
theorem finalise_add_peer_activates (pl : PeerListD) (peer_id : Nat) :
    ∃ s, stateOf (finalise_add_peer pl peer_id) peer_id = some s ∧
      s.vote = true := by
  unfold finalise_add_peer
  cases hidx : pl.get_index peer_id with
  | some i =>
    obtain ⟨peer, hget, hid⟩ := get_index_sound pl peer_id i hidx
    refine ⟨peer.state.union (addPeerTargetState pl peer_id), ?_, ?_⟩
    · simp only [PeerListD.change_peer_state, hget, stateOf]
      rw [get_index_set_state pl i peer _ hget peer_id, hidx]
      simp only [Option.some_bind]
      rw [get_set_self pl i peer _ hget]
      rfl
    · simp [PeerListM.PeerState.union, addPeerTargetState_vote pl peer_id]
  | none =>
    have hour : ¬ peer_id = pl.ourPeer.id := by
      intro hcontra
      unfold PeerListD.get_index at hidx
      rw [if_pos hcontra] at hidx
      cases hidx
    have hfind : pl.peers.findIdx? (fun p => p.id == peer_id) = none := by
      unfold PeerListD.get_index at hidx
      rw [if_neg hour] at hidx
      cases hf : pl.peers.findIdx? (fun p => p.id == peer_id) with
      | none => rfl
      | some j => rw [hf] at hidx; cases hidx
    refine ⟨addPeerTargetState pl peer_id, ?_, addPeerTargetState_vote pl peer_id⟩
    simp only [PeerListD.add_peer, hour, if_false, hfind, stateOf]
    have hfind2 : (pl.peers ++ [(⟨peer_id, addPeerTargetState pl peer_id⟩ : PeerD)]).findIdx?
        (fun p => p.id == peer_id) = some pl.peers.length := by
      rw [List.findIdx?_append, hfind]
      simp [List.findIdx?_cons]
    simp only [PeerListD.get_index, hour, if_false]
    rw [hfind2]
    simp only [Option.map_some', PeerListD.get, Nat.add_one_ne_zero, if_false,
      Nat.add_sub_cancel, Option.some_bind]
    rw [List.get?_eq_getElem?]
    rw [List.getElem?_append_right (by omega)]
    simp

/-- `finalise_remove_peer` deactivates a present peer. -/
theorem finalise_remove_peer_deactivates (pl : PeerListD) (peer_id : Nat)
    (hpresent : (pl.get_index peer_id).isSome) :
    stateOf (finalise_remove_peer pl peer_id) peer_id =
      some PeerState.inactive := by
  unfold finalise_remove_peer
  cases hidx : pl.get_index peer_id with
  | none => rw [hidx] at hpresent; cases hpresent
  | some i =>
    obtain ⟨peer, hget, hid⟩ := get_index_sound pl peer_id i hidx
    simp only [PeerListD.remove_peer, hget, stateOf]
    rw [get_index_set_state pl i peer _ hget peer_id, hidx]
    simp only [Option.some_bind]
    rw [get_set_self pl i peer _ hget]
    rfl

/-- C2: after consensus on a membership change, `handle_dkg_message_ack` for
the block's key-gen session leaves every peer's state untouched while the
session is not ready (early return on stale block numbers, invalid acks only
queue an accusation, valid acks short of `is_ready` change nothing); once the
ack makes the session ready, the pending blocks numbered `next_block_number`
through `block_number` inclusive are applied in order (`Add` activates the
peer, `Remove`/`Accusation` deactivate it), every key-gen session keyed up to
`block_number` is dropped, and `poll` never returns a block numbered at or
beyond `next_block_number` (the head of the queue, number
`first_consensused_block_number`, is returned only while it is below
`next_block_number`). -/
theorem handle_dkg_ack_gates_membership (st : ParsecD) (block_number : Nat)
    (hfn : st.first_consensused_block_number ≤ st.next_block_number) :
    (block_number < st.next_block_number →
      handle_dkg_message_ack st block_number = some st) ∧
    (∀ kg, kgLookup st.key_gen block_number = some kg →
      ¬ block_number < st.next_block_number →
      (kg.ackOutcomeValid = false →
        handle_dkg_message_ack st block_number =
          some { st with pending_accusations := st.pending_accusations + 1 }) ∧
      (kg.ackOutcomeValid = true → kg.readyAfter = false →
        handle_dkg_message_ack st block_number = some st) ∧
      (kg.ackOutcomeValid = true → kg.readyAfter = true →
        ∃ st', handle_dkg_message_ack st block_number = some st' ∧
          st'.peer_list =
            ((st.consensused_blocks.drop
                (st.next_block_number - st.first_consensused_block_number)).take
              (block_number + 1 - st.next_block_number)).foldl
              applyBlock st.peer_list ∧
          (∀ n, st.next_block_number ≤ n → n ≤ block_number →
            ((st.consensused_blocks.drop
                (st.next_block_number - st.first_consensused_block_number)).take
              (block_number + 1 - st.next_block_number)).get?
              (n - st.next_block_number) =
              st.consensused_blocks.get?
                (n - st.first_consensused_block_number)) ∧
          (∀ bn, bn ≤ block_number → kgLookup st'.key_gen bn = none) ∧
          st'.consensused_blocks = st.consensused_blocks ∧
          st'.first_consensused_block_number =
            st.first_consensused_block_number)) ∧
    (∀ pl peer_id, ∃ s,
      stateOf (applyBlock pl (ObsD.add peer_id)) peer_id = some s ∧
        s.vote = true) ∧
    (∀ pl peer_id, (PeerListD.get_index pl peer_id).isSome →
      stateOf (applyBlock pl (ObsD.remove peer_id)) peer_id =
        some PeerState.inactive ∧
      stateOf (applyBlock pl (ObsD.accusation peer_id)) peer_id =
        some PeerState.inactive) ∧
    (∀ b, (poll st).1 = some b →
      st.consensused_blocks.get? 0 = some b ∧
      st.first_consensused_block_number < st.next_block_number) ∧
    (¬ st.first_consensused_block_number < st.next_block_number →
      (poll st).1 = none) := by
  refine ⟨?_, ?_, ?_, ?_, ?_, ?_⟩
  · intro hlt
    simp [handle_dkg_message_ack, hlt]
  · intro kg hkg hge
    refine ⟨?_, ?_, ?_⟩
    · intro hinvalid
      simp [handle_dkg_message_ack, hge, hkg, hinvalid]
    · intro hvalid hnready
      simp [handle_dkg_message_ack, hge, hkg, hvalid, hnready]
    · intro hvalid hready
      refine ⟨move_next_block_number
        { st with
          peer_list :=
            ((st.consensused_blocks.drop
                (st.next_block_number - st.first_consensused_block_number)).take
              (block_number + 1 - st.next_block_number)).foldl
              applyBlock st.peer_list,
          key_gen := st.key_gen.filter
            (fun e => block_number + 1 ≤ e.1) },
        ?_, rfl, ?_, ?_, rfl, rfl⟩
      · simp [handle_dkg_message_ack, hge, hkg, hvalid, hready]
      · intro n hn hbn
        have harith : st.next_block_number - st.first_consensused_block_number +
            (n - st.next_block_number) = n - st.first_consensused_block_number := by
          omega
        rw [List.get?_eq_getElem?, List.get?_eq_getElem?]
        rw [List.getElem?_take_of_lt (by omega)]
        rw [List.getElem?_drop, harith]
      · intro bn hbn
        exact kgLookup_filter_drop st.key_gen block_number bn hbn
  · intro pl peer_id
    exact finalise_add_peer_activates pl peer_id
  · intro pl peer_id hpresent
    exact ⟨finalise_remove_peer_deactivates pl peer_id hpresent,
      finalise_remove_peer_deactivates pl peer_id hpresent⟩
  · intro b hb
    unfold poll at hb
    by_cases hlt : st.first_consensused_block_number < st.next_block_number
    · rw [if_pos hlt] at hb
      simp only at hb
      refine ⟨?_, hlt⟩
      rw [List.get?_eq_getElem?, ← List.head?_eq_getElem?]
      exact hb
    · rw [if_neg hlt] at hb
      cases hb
  · intro hge
    simp [poll, hge]

/-- Witness for C2 at a concrete state: one `Add(7)` block is pending at
block number 0; the ready ack for key-gen session 0 applies it, drops the
session, and the numbering of applied blocks matches the queue. -/
theorem handle_dkg_ack_witness :
    ∃ st', handle_dkg_message_ack
      ⟨⟨⟨5, ⟨true, true, true⟩⟩, []⟩, 0, 0, [(0, ⟨true, true⟩)],
        [ObsD.add 7], 0⟩ 0 = some st' ∧
      st'.peer_list =
        (([ObsD.add 7].drop (0 - 0)).take (0 + 1 - 0)).foldl applyBlock
          ⟨⟨5, ⟨true, true, true⟩⟩, []⟩ ∧
      (∀ n, 0 ≤ n → n ≤ 0 →
        (([ObsD.add 7].drop (0 - 0)).take (0 + 1 - 0)).get? (n - 0) =
          [ObsD.add 7].get? (n - 0)) ∧
      (∀ bn, bn ≤ 0 → kgLookup st'.key_gen bn = none) ∧
      st'.consensused_blocks = [ObsD.add 7] ∧
      st'.first_consensused_block_number = 0 := by
  exact ((handle_dkg_ack_gates_membership
    ⟨⟨⟨5, ⟨true, true, true⟩⟩, []⟩, 0, 0, [(0, ⟨true, true⟩)],
      [ObsD.add 7], 0⟩ 0 (by decide)).2.1 ⟨true, true⟩ rfl
    (by decide)).2.2 rfl rfl

end Dkg
